import Mathlib

/-!
Verification of the hr-assistant repository core against its specification.

Text is modelled as `List Char`.  The components embedded here are:
* `TextSplitter` (backend/src/data/ingestion/text_splitter.py),
* the agent orchestrator loop `LLMService.agent_execute`
  (src/services/llm_service.py),
* the batched embedding pipeline `generate_embeddings_batch`
  (backend/scripts/ingest_documents.py),
* the retrieval gateway `VectorStoreService.search`
  (src/services/vector_store_service.py).
-/

/-- Python `str.isspace` on the ASCII whitespace characters relevant to
`str.strip()` / `str.split()`. -/
def pyIsSpace (c : Char) : Bool :=
  c == ' ' || c == '\t' || c == '\n' || c == '\r' || c == '\x0b' || c == '\x0c'

/-- The sentence-terminator class `[.!?]` of `_split_large_part`. -/
def isSentPunct (c : Char) : Bool :=
  c == '.' || c == '!' || c == '?'

/-- Python `str.lstrip()` (default whitespace). -/
def lstrip (l : List Char) : List Char := l.dropWhile pyIsSpace

/-- Python `str.rstrip()` (default whitespace). -/
def rstrip (l : List Char) : List Char := (l.reverse.dropWhile pyIsSpace).reverse

/-- Python `str.strip()` (default whitespace). -/
def pyStrip (l : List Char) : List Char := rstrip (lstrip l)

/-- The text has at least one non-whitespace character. -/
def hasNonWs (l : List Char) : Bool := l.any (fun c => !pyIsSpace c)

/-- The last character, if any, is not whitespace. -/
def lastNonWs (l : List Char) : Prop :=
  ∀ c, l.getLast? = some c → pyIsSpace c = false

instance (l : List Char) : Decidable (lastNonWs l) := by
  unfold lastNonWs; infer_instance

/-- Worker for Python `str.split(sep)` with a non-empty separator: `skip`
counts separator characters still to be consumed after a match, `cur` is the
piece being accumulated. -/
def pySplitGo (sep : List Char) : List Char → Nat → List Char → List (List Char)
  | [], _, cur => [cur]
  | _ :: cs, skip + 1, cur => pySplitGo sep cs skip cur
  | c :: cs, 0, cur =>
    if sep.isPrefixOf (c :: cs) then
      cur :: pySplitGo sep cs (sep.length - 1) []
    else
      pySplitGo sep cs 0 (cur ++ [c])

/-- Python `str.split(sep)`.  (For `sep = []` Python raises `ValueError`;
we return `[l]`, and every claim about a configured splitter only relies on
non-empty separators.) -/
def pySplit (sep l : List Char) : List (List Char) :=
  if sep = [] then [l] else pySplitGo sep l 0 []

/-- List intercalation used both to reason about `pySplit` and to model
`" ".join(...)` / separator-joined accumulation. -/
def joinSep (sep : List Char) : List (List Char) → List Char
  | [] => []
  | [x] => x
  | x :: y :: xs => x ++ sep ++ joinSep sep (y :: xs)

/-- Worker for `re.split(r'[.!?]+\s+', text)`: `wsMode` means we are inside
the `\s+` part of a match, `cur` is the current piece, `pr` a pending run of
sentence punctuation that may or may not turn into a match. -/
def sentGo : List Char → Bool → List Char → List Char → List (List Char)
  | [], _, cur, pr => [cur ++ pr]
  | c :: cs, true, cur, pr =>
    if pyIsSpace c then sentGo cs true cur pr
    else if isSentPunct c then sentGo cs false cur (pr ++ [c])
    else sentGo cs false (cur ++ pr ++ [c]) []
  | c :: cs, false, cur, pr =>
    if isSentPunct c then sentGo cs false cur (pr ++ [c])
    else if pr ≠ [] ∧ pyIsSpace c then cur :: sentGo cs true [] []
    else sentGo cs false (cur ++ pr ++ [c]) []

/-- `re.split(r'[.!?]+\s+', text)` as used by `_split_large_part`. -/
def sentSplit (l : List Char) : List (List Char) := sentGo l false [] []

/-- Worker for Python `str.split()` (split on whitespace runs, no empties). -/
def wordsGo : List Char → List Char → List (List Char)
  | [], cur => if cur = [] then [] else [cur]
  | c :: cs, cur =>
    if pyIsSpace c then
      (if cur = [] then wordsGo cs [] else cur :: wordsGo cs [])
    else wordsGo cs (cur ++ [c])

/-- Python `text.split()` as used by `_split_by_words`. -/
def pyWords (l : List Char) : List (List Char) := wordsGo l []

/-- Python `xs[-k:]` on a list: note that for `k = 0` this is the whole
list (`xs[-0:]` is `xs[0:]`), not the empty list. -/
def pyTailSlice (k : Nat) (l : List α) : List α :=
  if k = 0 then l else l.drop (l.length - k)

/-- Configuration of `TextSplitter.__init__`. -/
structure TextSplitter where
  chunk_size : Nat
  chunk_overlap : Nat
  separator : List Char

namespace TextSplitter

/-- `TextSplitter._get_overlap`.  Mirrors the Python slice `text[-overlap:]`,
including the `overlap = 0` quirk where `text[-0:]` is the whole string. -/
def getOverlap (ts : TextSplitter) (text : List Char) : List Char :=
  if text.length ≤ ts.chunk_overlap then text
  else if ts.chunk_overlap = 0 then text
  else text.drop (text.length - ts.chunk_overlap)

/-- Sum of `len(w) + 1` over words, as `_split_by_words` tracks it. -/
def sumLen (ws : List (List Char)) : Nat := (ws.map (fun w => w.length + 1)).sum

/-- Loop of `TextSplitter._split_by_words`: state is the emitted chunks, the
current word list and its tracked length. -/
def sbwGo (ts : TextSplitter) :
    List (List Char) → List (List Char) → List (List Char) → Nat → List (List Char)
  | [], chunks, curW, _ => if curW = [] then chunks else chunks ++ [joinSep [' '] curW]
  | w :: ws, chunks, curW, curLen =>
    if curLen + (w.length + 1) > ts.chunk_size then
      if curW ≠ [] then
        sbwGo ts ws (chunks ++ [joinSep [' '] curW])
          (pyTailSlice (ts.chunk_overlap / 10) curW ++ [w])
          (sumLen (pyTailSlice (ts.chunk_overlap / 10) curW ++ [w]))
      else sbwGo ts ws (chunks ++ [w]) [] 0
    else sbwGo ts ws chunks (curW ++ [w]) (curLen + (w.length + 1))

/-- `TextSplitter._split_by_words`. -/
def splitByWords (ts : TextSplitter) (text : List Char) : List (List Char) :=
  sbwGo ts (pyWords text) [] [] 0

/-- Loop of `TextSplitter._split_large_part` over the sentence pieces. -/
def slpGo (ts : TextSplitter) :
    List (List Char) → List (List Char) → List Char → List (List Char)
  | [], chunks, cur => if cur = [] then chunks else chunks ++ [pyStrip cur]
  | s :: ss, chunks, cur =>
    if cur.length + s.length > ts.chunk_size then
      if cur ≠ [] then slpGo ts ss (chunks ++ [pyStrip cur]) (ts.getOverlap cur ++ s)
      else slpGo ts ss (chunks ++ ts.splitByWords s) []
    else if cur ≠ [] then slpGo ts ss chunks (cur ++ ['.', ' '] ++ s)
    else slpGo ts ss chunks s

/-- `TextSplitter._split_large_part`. -/
def splitLargePart (ts : TextSplitter) (text : List Char) : List (List Char) :=
  slpGo ts (sentSplit text) [] []

/-- Loop of `TextSplitter.split_text` over the separator-split parts. -/
def stGo (ts : TextSplitter) :
    List (List Char) → List (List Char) → List Char → List (List Char)
  | [], chunks, cur => if cur = [] then chunks else chunks ++ [pyStrip cur]
  | p :: ps, chunks, cur =>
    let q := pyStrip p
    if q = [] then stGo ts ps chunks cur
    else if cur.length + q.length + ts.separator.length > ts.chunk_size then
      if cur ≠ [] then stGo ts ps (chunks ++ [pyStrip cur]) (ts.getOverlap cur ++ q)
      else stGo ts ps (chunks ++ (ts.splitLargePart q).dropLast)
        ((ts.splitLargePart q).getLastD [])
    else if cur ≠ [] then stGo ts ps chunks (cur ++ ts.separator ++ q)
    else stGo ts ps chunks q

/-- `TextSplitter.split_text`.  (`if not text or not text.strip(): return []`
collapses to the single test `strip text = []`.) -/
def splitText (ts : TextSplitter) (text : List Char) : List (List Char) :=
  if pyStrip text = [] then [] else stGo ts (pySplit ts.separator text) [] []

/-- Instrumented variant of `stGo` that tags each emitted chunk with `true`
exactly when it was emitted on the overflow branch of `split_text` with a
non-empty accumulated chunk (line 56 of text_splitter.py). -/
def stGoT (ts : TextSplitter) :
    List (List Char) → List (List Char × Bool) → List Char → List (List Char × Bool)
  | [], chunks, cur => if cur = [] then chunks else chunks ++ [(pyStrip cur, false)]
  | p :: ps, chunks, cur =>
    let q := pyStrip p
    if q = [] then stGoT ts ps chunks cur
    else if cur.length + q.length + ts.separator.length > ts.chunk_size then
      if cur ≠ [] then stGoT ts ps (chunks ++ [(pyStrip cur, true)]) (ts.getOverlap cur ++ q)
      else stGoT ts ps (chunks ++ ((ts.splitLargePart q).dropLast.map (fun c => (c, false))))
        ((ts.splitLargePart q).getLastD [])
    else if cur ≠ [] then stGoT ts ps chunks (cur ++ ts.separator ++ q)
    else stGoT ts ps chunks q

/-- `split_text` with each chunk tagged by whether it was emitted on the
overflow branch (`true`) or any other way (`false`). -/
def splitTextTagged (ts : TextSplitter) (text : List Char) : List (List Char × Bool) :=
  if pyStrip text = [] then [] else stGoT ts (pySplit ts.separator text) [] []

end TextSplitter

/-! ## Agent orchestrator (`LLMService.agent_execute`) -/

/-- A function-call request attached to a chat message
(`message.function_call`). -/
structure FuncCall where
  name : String
  arguments : String
deriving DecidableEq, Repr

/-- One possible outcome of a single `get_chat_message_contents` call inside
the planning loop: the backend raises, returns an empty list of messages, or
returns a message with optional content and an optional function call. -/
inductive ModelResponse where
  | raised (err : String)
  | empty
  | message (content : Option String) (function_call : Option FuncCall)
deriving DecidableEq, Repr

/-- A recorded tool call `{tool_name, arguments, iteration}`. -/
structure ToolCallRec where
  tool_name : String
  arguments : String
  iteration : Nat
deriving DecidableEq, Repr

/-- The dict returned by `agent_execute`.  `answer` is `Option String` to
express the dynamically-typed value: every return site must fill it with a
string for the result to be non-null. -/
structure AgentResult where
  answer : Option String
  tool_calls : List ToolCallRec
  iterations : Nat
  agent_plan : String
deriving DecidableEq, Repr

/-- Mutable loop state of `agent_execute`: recorded tool calls, the
iteration counter, and the most recent assistant-authored message in the
conversation history (`""` when there is none, matching the falsy scan). -/
structure AgentState where
  tool_calls : List ToolCallRec
  iterations : Nat
  lastAssistant : String
deriving DecidableEq, Repr

/-- Python `str(content)` for an optional string. -/
def pyStr : Option String → String
  | none => "None"
  | some s => s

/-- Python truthiness of `message.content`. -/
def pyTruthy : Option String → Bool
  | none => false
  | some s => !s.isEmpty

/-- The fallback answer of the EXHAUSTED terminal state. -/
def exhaustMsg : String :=
  "I reached my thinking limit. Please try asking a more specific question."

/-- Prefix of the FAILED terminal answer. -/
def errAnswer (e : String) : String :=
  "I encountered an error while processing your question: " ++ e

/-- Result built after the loop finishes without a final answer
(max-iterations exhaustion, including the `break` on an empty response). -/
def exhaustedResult (maxIter : Nat) (st : AgentState) : AgentResult :=
  { answer := some (if st.lastAssistant.isEmpty then exhaustMsg else st.lastAssistant)
    tool_calls := st.tool_calls
    iterations := st.iterations
    agent_plan := "Reached max iterations (" ++ toString maxIter ++ ") with "
      ++ toString st.tool_calls.length ++ " tool call(s)" }

/-- Result built by the outer `except` handler (FAILED state). -/
def failedResult (e : String) : AgentResult :=
  { answer := some (errAnswer e)
    tool_calls := []
    iterations := 0
    agent_plan := "Error during execution" }

/-- Result built when the model returns content with no function call
(ANSWERED state). -/
def answeredResult (c : String) (st : AgentState) : AgentResult :=
  { answer := some c
    tool_calls := st.tool_calls
    iterations := st.iterations
    agent_plan := "Completed in " ++ toString st.iterations ++ " iteration(s) with "
      ++ toString st.tool_calls.length ++ " tool call(s)" }

/-- The `for iteration in range(max_iterations)` loop of `agent_execute`.
`resp i` is the backend's behaviour on the `i`-th (0-based) planning call;
`fuel` is the number of loop iterations still available.  An exception on a
non-final iteration is caught and the loop continues; on the final iteration
it is re-raised and the outer handler returns `failedResult`. -/
def agentLoop (resp : Nat → ModelResponse) (maxIter : Nat) :
    Nat → AgentState → AgentResult
  | 0, st => exhaustedResult maxIter st
  | fuel + 1, st =>
    match resp st.iterations with
    | .raised e =>
      if st.iterations + 1 = maxIter then failedResult e
      else agentLoop resp maxIter fuel { st with iterations := st.iterations + 1 }
    | .empty => exhaustedResult maxIter { st with iterations := st.iterations + 1 }
    | .message c (some f) =>
      agentLoop resp maxIter fuel
        { tool_calls := st.tool_calls ++ [⟨f.name, f.arguments, st.iterations + 1⟩]
          iterations := st.iterations + 1
          lastAssistant := pyStr c }
    | .message c none =>
      if pyTruthy c then
        answeredResult (pyStr c)
          { st with iterations := st.iterations + 1, lastAssistant := pyStr c }
      else
        agentLoop resp maxIter fuel
          { st with iterations := st.iterations + 1, lastAssistant := pyStr c }

/-- `LLMService.agent_execute`, abstracted over the backend's behaviour. -/
def agentExecute (resp : Nat → ModelResponse) (maxIter : Nat) : AgentResult :=
  agentLoop resp maxIter maxIter ⟨[], 0, ""⟩

/-! ## Embedding pipeline (`generate_embeddings_batch`) -/

/-- A chunk record as far as the batched embedding pipeline reads and writes
it: the pipeline reads `chunk['text']` and sets `chunk['embedding']`.  `V` is
the vector type produced by the embedding backend. -/
structure ChunkRec (V : Type) where
  id : String
  text : String
  embedding : Option V
deriving DecidableEq, Repr

/-- `generate_embeddings_batch` of backend/scripts/ingest_documents.py:
process `chunks` in slices of `bs`; a successful batch zips embeddings onto
its chunks, a failing batch is appended unchanged (no embedding field).
(Python raises `ValueError` on a zero step; we return `[]` there, and all
claims assume a positive batch size.) -/
def generateEmbeddingsBatch {V : Type} (embed : List String → Except String (List V))
    (bs : Nat) (chunks : List (ChunkRec V)) : List (ChunkRec V) :=
  if _h : bs = 0 then []
  else
    match chunks with
    | [] => []
    | c :: cs =>
      (match embed (((c :: cs).take bs).map (fun k => k.text)) with
       | .ok es => ((c :: cs).take bs).zipWith (fun k e => { k with embedding := some e }) es
       | .error _ => (c :: cs).take bs)
      ++ generateEmbeddingsBatch embed bs ((c :: cs).drop bs)
termination_by chunks.length
decreasing_by
  simp only [List.length_drop, List.length_cons]
  omega

/-! ## Retrieval gateway (`VectorStoreService.search`) -/

/-- A raw match as returned by the vector index backend. -/
structure RawMatch (S : Type) where
  id : String
  score : S
  metadata : Option (List (String × String))

/-- The backend's query result; `matchList` models `results["matches"]`
(`matches` is a reserved word in Lean). -/
structure QueryResult (S : Type) where
  matchList : List (RawMatch S)

/-- The normalized match record produced by `VectorStoreService.search`. -/
structure SearchMatchRec (S : Type) where
  id : String
  score : S
  metadata : List (String × String)
  text : String

/-- `VectorStoreService.search`, abstracted over the embedding backend and
the vector index.  `index = none` models an unavailable Pinecone index (after
the initialize retry); `embedQ` and the index query return `Except` to model
raised exceptions, each of which is caught and turned into `[]`. -/
def VectorStoreService.search {S V : Type}
    (index : Option (List V → Nat → String → Except String (QueryResult S)))
    (embedQ : String → Except String (List V))
    (query : String) (top_k : Nat) (ns : Option String) : List (SearchMatchRec S) :=
  match index with
  | none => []
  | some idx =>
    match embedQ query with
    | .error _ => []
    | .ok v =>
      match idx v top_k (ns.getD "") with
      | .error _ => []
      | .ok res =>
        res.matchList.map (fun m =>
          { id := m.id
            score := m.score
            metadata := m.metadata.getD []
            text := ((m.metadata.getD []).lookup "text").getD "" })


/-! ## Agent loop lemmas -/

/-- Any run of the loop with its fuel budget inside `maxIter` stays within
`maxIter` iterations and returns a string answer. -/
lemma agentLoop_le_and_some (resp : Nat → ModelResponse) (maxIter : Nat) :
    ∀ fuel st, st.iterations + fuel ≤ maxIter →
      (agentLoop resp maxIter fuel st).iterations ≤ maxIter ∧
        (agentLoop resp maxIter fuel st).answer.isSome = true := by
  intro fuel
  induction fuel with
  | zero =>
    intro st h
    simp only [agentLoop, exhaustedResult, Option.isSome_some, and_true]
    omega
  | succ f ih =>
    intro st h
    cases hr : resp st.iterations with
    | raised e =>
      by_cases hit : st.iterations + 1 = maxIter
      · simp [agentLoop, hr, hit, failedResult]
      · simp only [agentLoop, hr, if_neg hit]
        exact ih _ (by show st.iterations + 1 + f ≤ maxIter; omega)
    | empty =>
      simp only [agentLoop, hr, exhaustedResult, Option.isSome_some, and_true]
      show st.iterations + 1 ≤ maxIter
      omega
    | message c fc =>
      cases fc with
      | some f' =>
        simp only [agentLoop, hr]
        exact ih _ (by show st.iterations + 1 + f ≤ maxIter; omega)
      | none =>
        by_cases hc : pyTruthy c = true
        · simp only [agentLoop, hr, if_pos hc, answeredResult, Option.isSome_some, and_true]
          show st.iterations + 1 ≤ maxIter
          omega
        · simp only [agentLoop, hr, if_neg hc]
          refine ih _ ?_
          show st.iterations + 1 + f ≤ maxIter
          omega

/-- Trace-shape invariant preserved by the loop: tool-call count bounded by
the iteration counter, stamps in range, stamps non-decreasing. -/
lemma agentLoop_trace (resp : Nat → ModelResponse) (maxIter : Nat) :
    ∀ fuel st,
      st.tool_calls.length ≤ st.iterations →
      (∀ tc ∈ st.tool_calls, 1 ≤ tc.iteration ∧ tc.iteration ≤ st.iterations) →
      st.tool_calls.Pairwise (fun a b => a.iteration ≤ b.iteration) →
      (agentLoop resp maxIter fuel st).tool_calls.length ≤
          (agentLoop resp maxIter fuel st).iterations ∧
        (∀ tc ∈ (agentLoop resp maxIter fuel st).tool_calls,
          1 ≤ tc.iteration ∧ tc.iteration ≤ (agentLoop resp maxIter fuel st).iterations) ∧
        (agentLoop resp maxIter fuel st).tool_calls.Pairwise
          (fun a b => a.iteration ≤ b.iteration) := by
  intro fuel
  induction fuel with
  | zero =>
    intro st h1 h2 h3
    simpa only [agentLoop, exhaustedResult] using ⟨h1, h2, h3⟩
  | succ f ih =>
    intro st h1 h2 h3
    cases hr : resp st.iterations with
    | raised e =>
      by_cases hit : st.iterations + 1 = maxIter
      · simp [agentLoop, hr, hit, failedResult]
      · simp only [agentLoop, hr, if_neg hit]
        refine ih _ ?_ ?_ h3
        · show st.tool_calls.length ≤ st.iterations + 1
          omega
        · intro tc htc
          have := h2 tc htc
          show 1 ≤ tc.iteration ∧ tc.iteration ≤ st.iterations + 1
          omega
    | empty =>
      simp only [agentLoop, hr, exhaustedResult]
      refine ⟨?_, ?_, h3⟩
      · show st.tool_calls.length ≤ st.iterations + 1
        omega
      · intro tc htc
        have := h2 tc htc
        show 1 ≤ tc.iteration ∧ tc.iteration ≤ st.iterations + 1
        omega
    | message c fc =>
      cases fc with
      | some f' =>
        simp only [agentLoop, hr]
        refine ih _ ?_ ?_ ?_
        · show (st.tool_calls ++
              [(⟨f'.name, f'.arguments, st.iterations + 1⟩ : ToolCallRec)]).length ≤
            st.iterations + 1
          simp only [List.length_append, List.length_singleton]
          omega
        · intro tc htc
          show 1 ≤ tc.iteration ∧ tc.iteration ≤ st.iterations + 1
          simp only [List.mem_append, List.mem_singleton] at htc
          rcases htc with htc | rfl
          · have := h2 tc htc
            omega
          · simp
        · show (st.tool_calls ++
              [(⟨f'.name, f'.arguments, st.iterations + 1⟩ : ToolCallRec)]).Pairwise
            (fun a b => a.iteration ≤ b.iteration)
          refine List.pairwise_append.mpr ⟨h3, List.pairwise_singleton _ _, ?_⟩
          intro a ha b hb
          simp only [List.mem_singleton] at hb
          subst hb
          have := (h2 a ha).2
          show a.iteration ≤ st.iterations + 1
          omega
      | none =>
        by_cases hc : pyTruthy c = true
        · simp only [agentLoop, hr, if_pos hc, answeredResult]
          refine ⟨?_, ?_, h3⟩
          · show st.tool_calls.length ≤ st.iterations + 1
            omega
          · intro tc htc
            have := h2 tc htc
            show 1 ≤ tc.iteration ∧ tc.iteration ≤ st.iterations + 1
            omega
        · simp only [agentLoop, hr, if_neg hc]
          refine ih _ ?_ ?_ h3
          · show st.tool_calls.length ≤ st.iterations + 1
            omega
          · intro tc htc
            have := h2 tc htc
            show 1 ≤ tc.iteration ∧ tc.iteration ≤ st.iterations + 1
            omega

/-- A backend behaviour that cannot produce a final answer on a given
planning call: an exception, a tool call, or a contentless message. -/
def continuesB : ModelResponse → Bool
  | .raised _ => true
  | .empty => false
  | .message c fc => fc.isSome || !pyTruthy c

/-- If every non-final call continues the loop and the final call raises,
the loop ends in the FAILED handler. -/
lemma agentLoop_failed (resp : Nat → ModelResponse) (maxIter : Nat) (e : String) :
    ∀ fuel st, st.iterations + fuel = maxIter → 0 < fuel →
      (∀ k, st.iterations ≤ k → k + 1 < maxIter → continuesB (resp k) = true) →
      resp (maxIter - 1) = .raised e →
      agentLoop resp maxIter fuel st = failedResult e := by
  intro fuel
  induction fuel with
  | zero => omega
  | succ f ih =>
    intro st hsum _ hcont hlast
    rcases Nat.eq_zero_or_pos f with hf | hf
    · subst hf
      have hidx : st.iterations = maxIter - 1 := by omega
      have hit : st.iterations + 1 = maxIter := by omega
      have hlast' : resp st.iterations = .raised e := by rw [hidx]; exact hlast
      simp only [agentLoop, hlast', if_pos hit]
    · have hlt : st.iterations + 1 < maxIter := by omega
      have hc := hcont st.iterations le_rfl hlt
      have hit : ¬ st.iterations + 1 = maxIter := by omega
      cases hr : resp st.iterations with
      | raised e' =>
        simp only [agentLoop, hr, if_neg hit]
        refine ih _ (by show st.iterations + 1 + f = maxIter; omega) hf
          (fun k hk h2 => hcont k (le_trans (Nat.le_succ st.iterations) hk) h2) hlast
      | empty => rw [hr] at hc; simp [continuesB] at hc
      | message c fc =>
        rw [hr] at hc
        simp only [continuesB, Bool.or_eq_true] at hc
        cases fc with
        | some f' =>
          simp only [agentLoop, hr]
          refine ih _ (by show st.iterations + 1 + f = maxIter; omega) hf
            (fun k hk h2 => hcont k (le_trans (Nat.le_succ st.iterations) hk) h2) hlast
        | none =>
          have hnc : ¬ pyTruthy c = true := by
            rcases hc with hc | hc
            · simp at hc
            · simp at hc
              simp [hc]
          simp only [agentLoop, hr, if_neg hnc]
          refine ih _ (by show st.iterations + 1 + f = maxIter; omega) hf
            (fun k hk h2 => hcont k (le_trans (Nat.le_succ st.iterations) hk) h2) hlast

/-! ## Claim theorems: agent orchestrator and retrieval gateway -/

/-- C1: for every sequence of chat-model responses (tool requests, free-text
answers, empty responses, or errors), `agent_execute` halts within
`max_iterations` planning cycles — the returned iteration count never
exceeds `max_iterations` and the model is a total function — and the
`answer` field of the result is a (non-null) string. -/
theorem agent_terminates_within_max_iterations
    (resp : Nat → ModelResponse) (maxIter : Nat) :
    (agentExecute resp maxIter).iterations ≤ maxIter ∧
      (agentExecute resp maxIter).answer.isSome = true :=
  agentLoop_le_and_some resp maxIter maxIter ⟨[], 0, ""⟩ (by simp)

/-- C7: in every run of `agent_execute`, the number of recorded tool calls
is at most the iteration count, every recorded call's `iteration` stamp lies
in `[1, iterations]`, and the stamps are non-decreasing in recording order. -/
theorem agent_trace_completeness (resp : Nat → ModelResponse) (maxIter : Nat) :
    (agentExecute resp maxIter).tool_calls.length ≤ (agentExecute resp maxIter).iterations ∧
      (∀ tc ∈ (agentExecute resp maxIter).tool_calls,
        1 ≤ tc.iteration ∧ tc.iteration ≤ (agentExecute resp maxIter).iterations) ∧
      (agentExecute resp maxIter).tool_calls.Pairwise
        (fun a b => a.iteration ≤ b.iteration) :=
  agentLoop_trace resp maxIter maxIter ⟨[], 0, ""⟩ (by simp) (by simp) (by simp)

/-- C6: when the chat backend raises an unrecoverable error during a
planning cycle (every earlier planning call kept the loop going and the
final one raises, so the exception escapes the loop), `agent_execute` does
not propagate the exception: it returns a result whose answer embeds the
error description, with `tool_calls = []` and `iterations = 0`. -/
theorem agent_failed_state_shape (resp : Nat → ModelResponse) (maxIter : Nat)
    (e : String) (h1 : 0 < maxIter)
    (h2 : ∀ k, k + 1 < maxIter → continuesB (resp k) = true)
    (h3 : resp (maxIter - 1) = .raised e) :
    agentExecute resp maxIter =
      { answer := some (errAnswer e), tool_calls := [], iterations := 0,
        agent_plan := "Error during execution" } :=
  agentLoop_failed resp maxIter e maxIter ⟨[], 0, ""⟩ (by simp) h1
    (fun k _ hk => h2 k hk) h3

/-- Witness for C6: a two-iteration run, a tool call then an exception. -/
theorem agent_failed_state_shape_witness :
    agentExecute
        (fun k => if k = 0 then ModelResponse.message (some "x") (some ⟨"t", "{}"⟩)
          else ModelResponse.raised "boom") 2 =
      { answer := some (errAnswer "boom"), tool_calls := [], iterations := 0,
        agent_plan := "Error during execution" } :=
  agent_failed_state_shape _ 2 "boom" (by decide)
    (by
      intro k hk
      have hk0 : k = 0 := by omega
      subst hk0
      decide)
    (by decide)

/-- C10: an exception from the chat backend on a non-final planning
iteration does not terminate the run — the loop continues into the next
iteration with the trace accumulated so far — while an exception on the
final (`max_iterations`-th) iteration is re-raised and yields the FAILED
result, discarding all previously recorded tool calls and iterations. -/
theorem agent_error_iteration_behavior (resp : Nat → ModelResponse)
    (maxIter : Nat) (st : AgentState) (e : String) (fuel : Nat) :
    (resp st.iterations = .raised e → st.iterations + 1 ≠ maxIter →
      agentLoop resp maxIter (fuel + 1) st =
        agentLoop resp maxIter fuel { st with iterations := st.iterations + 1 }) ∧
    (resp st.iterations = .raised e → st.iterations + 1 = maxIter →
      agentLoop resp maxIter (fuel + 1) st = failedResult e) := by
  constructor
  · intro hr hit
    simp only [agentLoop, hr, if_neg hit]
  · intro hr hit
    simp only [agentLoop, hr, if_pos hit]

/-- Witness for C10, at a state with one recorded tool call. -/
theorem agent_error_iteration_behavior_witness :
    (agentLoop (fun _ => ModelResponse.raised "boom") 3 2 ⟨[⟨"t", "{}", 1⟩], 1, "x"⟩ =
      agentLoop (fun _ => ModelResponse.raised "boom") 3 1 ⟨[⟨"t", "{}", 1⟩], 2, "x"⟩) ∧
    (agentLoop (fun _ => ModelResponse.raised "boom") 3 1 ⟨[⟨"t", "{}", 1⟩], 2, "x"⟩ =
      failedResult "boom") :=
  ⟨(agent_error_iteration_behavior (fun _ => ModelResponse.raised "boom") 3
      ⟨[⟨"t", "{}", 1⟩], 1, "x"⟩ "boom" 1).1 rfl (by decide),
   (agent_error_iteration_behavior (fun _ => ModelResponse.raised "boom") 3
      ⟨[⟨"t", "{}", 1⟩], 2, "x"⟩ "boom" 0).2 rfl rfl⟩

/-- C9: when the vector index is unavailable, or the embedding backend or
the index query raises during a query, `VectorStoreService.search` returns
the empty list of matches instead of propagating the failure. -/
theorem search_returns_empty_on_backend_failure {S V : Type}
    (index : Option (List V → Nat → String → Except String (QueryResult S)))
    (embedQ : String → Except String (List V))
    (query : String) (top_k : Nat) (ns : Option String)
    (h : index = none ∨ (∃ e, embedQ query = .error e) ∨
      (∃ f v e, index = some f ∧ embedQ query = .ok v ∧
        f v top_k (ns.getD "") = .error e)) :
    VectorStoreService.search index embedQ query top_k ns = [] := by
  rcases h with rfl | ⟨e, he⟩ | ⟨f, v, e, rfl, hv, hq⟩
  · rfl
  · cases index with
    | none => rfl
    | some idx => simp [VectorStoreService.search, he]
  · simp [VectorStoreService.search, hv, hq]

/-- Witness for C9: the index is present but its query raises. -/
theorem search_returns_empty_on_backend_failure_witness :
    @VectorStoreService.search Nat Nat
        (some (fun _ _ _ => Except.error "down")) (fun _ => Except.ok [1])
        "leave policy" 5 none = [] :=
  search_returns_empty_on_backend_failure _ _ _ _ _
    (Or.inr (Or.inr ⟨_, [1], "down", rfl, rfl, rfl⟩))

/-! ## Embedding pipeline lemmas -/

/-- Forget the embedding field of a chunk record. -/
def eraseEmb {V : Type} (c : ChunkRec V) : ChunkRec V := { c with embedding := none }

/-- Unfolding equation of the pipeline on the empty list. -/
lemma geb_nil {V : Type} (embed : List String → Except String (List V)) (bs : Nat) :
    generateEmbeddingsBatch embed bs [] = [] := by
  rw [generateEmbeddingsBatch]
  split <;> rfl

/-- Unfolding equation of the pipeline on a non-empty list. -/
lemma geb_cons {V : Type} (embed : List String → Except String (List V)) (bs : Nat)
    (hbs : ¬ bs = 0) (c : ChunkRec V) (cs : List (ChunkRec V)) :
    generateEmbeddingsBatch embed bs (c :: cs) =
      (match embed (((c :: cs).take bs).map (fun k => k.text)) with
       | .ok es => ((c :: cs).take bs).zipWith (fun k e => { k with embedding := some e }) es
       | .error _ => (c :: cs).take bs)
      ++ generateEmbeddingsBatch embed bs ((c :: cs).drop bs) := by
  rw [generateEmbeddingsBatch]
  rw [dif_neg hbs]

/-- Erasure is the identity on chunks without embeddings. -/
lemma map_eraseEmb_id {V : Type} :
    ∀ l : List (ChunkRec V), (∀ c ∈ l, c.embedding = none) → l.map eraseEmb = l := by
  intro l h
  induction l with
  | nil => rfl
  | cons c cs ih =>
    have hc := h c (by simp)
    simp only [List.map_cons]
    rw [ih (fun x hx => h x (by simp [hx]))]
    congr 1
    simp [eraseEmb, ← hc]

/-- Attaching embeddings and erasing them recovers the batch. -/
lemma zipWith_set_erase {V : Type} :
    ∀ (l : List (ChunkRec V)) (es : List V), (∀ c ∈ l, c.embedding = none) →
      (l.zipWith (fun k e => { k with embedding := some e }) es).map eraseEmb = l.take es.length := by
  intro l
  induction l with
  | nil => intro es _; simp
  | cons c cs ih =>
    intro es h
    cases es with
    | nil => simp
    | cons e es' =>
      simp only [List.zipWith_cons_cons, List.map_cons, List.length_cons, List.take_succ_cons]
      rw [ih es' (fun x hx => h x (by simp [hx]))]
      congr 1
      have hc := h c (by simp)
      simp [eraseEmb, ← hc]

/-- Every chunk of a successfully embedded batch carries a vector. -/
lemma zipWith_set_isSome {V : Type} :
    ∀ (l : List (ChunkRec V)) (es : List V) (ck : ChunkRec V),
      ck ∈ l.zipWith (fun k e => { k with embedding := some e }) es →
      ck.embedding.isSome = true := by
  intro l
  induction l with
  | nil => intro es ck h; simp at h
  | cons c cs ih =>
    intro es ck h
    cases es with
    | nil => simp at h
    | cons e es' =>
      simp only [List.zipWith_cons_cons, List.mem_cons] at h
      rcases h with rfl | h
      · rfl
      · exact ih es' ck h

/-- Main induction for the batched pipeline: erasure returns the input, and
position `i` of the output carries a vector iff the embedding call on the
batch containing `i` succeeded. -/
lemma geb_main {V : Type} (embed : List String → Except String (List V)) (bs : Nat)
    (hbs : 0 < bs)
    (hlen : ∀ ts vs, embed ts = .ok vs → vs.length = ts.length) :
    ∀ n (chunks : List (ChunkRec V)), chunks.length ≤ n →
      (∀ c ∈ chunks, c.embedding = none) →
      (generateEmbeddingsBatch embed bs chunks).map eraseEmb = chunks ∧
        ∀ i, i < chunks.length →
          ∃ ck, (generateEmbeddingsBatch embed bs chunks)[i]? = some ck ∧
            (ck.embedding.isSome = true ↔
              ∃ vs, embed (((chunks.drop (bs * (i / bs))).take bs).map (fun k => k.text)) =
                Except.ok vs) := by
  intro n
  induction n with
  | zero =>
    intro chunks hl hn
    have hnil : chunks = [] := List.eq_nil_of_length_eq_zero (Nat.le_zero.mp hl)
    subst hnil
    refine ⟨by rw [geb_nil]; rfl, ?_⟩
    intro i hi
    simp at hi
  | succ n ih =>
    intro chunks hl hn
    cases chunks with
    | nil =>
      refine ⟨by rw [geb_nil]; rfl, ?_⟩
      intro i hi
      simp at hi
    | cons c cs =>
      rw [geb_cons embed bs (by omega) c cs]
      have hbatch_none : ∀ x ∈ (c :: cs).take bs, x.embedding = none :=
        fun x hx => hn x (List.mem_of_mem_take hx)
      have hrest_none : ∀ x ∈ (c :: cs).drop bs, x.embedding = none :=
        fun x hx => hn x (List.mem_of_mem_drop hx)
      have hrest_len : ((c :: cs).drop bs).length ≤ n := by
        simp only [List.length_drop, List.length_cons]
        simp only [List.length_cons] at hl
        omega
      obtain ⟨ihmap, ihidx⟩ := ih ((c :: cs).drop bs) hrest_len hrest_none
      cases hem : embed (((c :: cs).take bs).map (fun k => k.text)) with
      | ok es =>
        have hle : es.length = ((c :: cs).take bs).length := by
          have := hlen _ _ hem
          simpa using this
        have hsteplen :
            (((c :: cs).take bs).zipWith (fun k e => { k with embedding := some e }) es).length =
              ((c :: cs).take bs).length := by
          simp [List.length_zipWith, hle]
        refine ⟨?_, ?_⟩
        · rw [List.map_append, ihmap, zipWith_set_erase _ _ hbatch_none, hle,
            List.take_length, List.take_append_drop]
        · intro i hi
          by_cases hib : i < bs
          · have hdiv : i / bs = 0 := Nat.div_eq_of_lt hib
            have hilt : i < ((c :: cs).take bs).length := by
              simp only [List.length_take]
              simp only [List.length_cons] at hi ⊢
              omega
            rw [List.getElem?_append_left (by rw [hsteplen]; exact hilt)]
            have hilt2 : i <
                (((c :: cs).take bs).zipWith (fun k e => { k with embedding := some e }) es).length := by
              rw [hsteplen]; exact hilt
            have hck := List.getElem?_eq_getElem hilt2
            refine ⟨_, hck, ?_⟩
            have hmem := List.getElem?_mem hck
            rw [hdiv, Nat.mul_zero, List.drop_zero]
            exact ⟨fun _ => ⟨es, hem⟩, fun _ => zipWith_set_isSome _ _ _ hmem⟩
          · push_neg at hib
            have hlen1 : ((c :: cs).take bs).length = bs := by
              simp only [List.length_take, List.length_cons]
              simp only [List.length_cons] at hi
              omega
            rw [List.getElem?_append_right (by rw [hsteplen, hlen1]; exact hib)]
            rw [hsteplen, hlen1]
            obtain ⟨ck, hck, hiff⟩ := ihidx (i - bs) (by
              simp only [List.length_drop, List.length_cons]
              simp only [List.length_cons] at hi
              omega)
            refine ⟨ck, hck, ?_⟩
            rw [List.drop_drop] at hiff
            have harith : bs + bs * ((i - bs) / bs) = bs * (i / bs) := by
              have h1 : (i - bs) / bs + 1 = i / bs := by
                rw [← Nat.add_div_right _ hbs, Nat.sub_add_cancel hib]
              rw [← h1]
              ring
            rw [harith] at hiff
            exact hiff
      | error e =>
        refine ⟨?_, ?_⟩
        · rw [List.map_append, ihmap, map_eraseEmb_id _ hbatch_none, List.take_append_drop]
        · intro i hi
          by_cases hib : i < bs
          · have hdiv : i / bs = 0 := Nat.div_eq_of_lt hib
            have hilt : i < ((c :: cs).take bs).length := by
              simp only [List.length_take]
              simp only [List.length_cons] at hi ⊢
              omega
            rw [List.getElem?_append_left hilt]
            have hck := List.getElem?_eq_getElem hilt
            refine ⟨_, hck, ?_⟩
            have hmem := List.getElem?_mem hck
            rw [hdiv, Nat.mul_zero, List.drop_zero]
            constructor
            · intro hs
              rw [hbatch_none _ hmem] at hs
              simp at hs
            · rintro ⟨vs, hvs⟩
              rw [hvs] at hem
              simp at hem
          · push_neg at hib
            have hlen1 : ((c :: cs).take bs).length = bs := by
              simp only [List.length_take, List.length_cons]
              simp only [List.length_cons] at hi
              omega
            rw [List.getElem?_append_right (by rw [hlen1]; exact hib)]
            rw [hlen1]
            obtain ⟨ck, hck, hiff⟩ := ihidx (i - bs) (by
              simp only [List.length_drop, List.length_cons]
              simp only [List.length_cons] at hi
              omega)
            refine ⟨ck, hck, ?_⟩
            rw [List.drop_drop] at hiff
            have harith : bs + bs * ((i - bs) / bs) = bs * (i / bs) := by
              have h1 : (i - bs) / bs + 1 = i / bs := by
                rw [← Nat.add_div_right _ hbs, Nat.sub_add_cancel hib]
              rw [← h1]
              ring
            rw [harith] at hiff
            exact hiff

/-- C8: for every list of chunks and every pattern of per-batch embedding
failures, the output of `generate_embeddings_batch` contains all input
chunks in their original order (erasing the added embedding fields returns
exactly the input list, so no chunk is dropped); a chunk carries an
embedding iff the embedding call for its batch succeeded, so chunks of
failed batches lack the embedding field.  The batch size is positive and
the embedding backend returns one vector per input text on success. -/
theorem embeddings_batch_preserves_chunks {V : Type}
    (embed : List String → Except String (List V)) (bs : Nat)
    (chunks : List (ChunkRec V)) (hbs : 0 < bs)
    (hlen : ∀ ts vs, embed ts = .ok vs → vs.length = ts.length)
    (hnone : ∀ c ∈ chunks, c.embedding = none) :
    (generateEmbeddingsBatch embed bs chunks).map eraseEmb = chunks ∧
      ∀ i, i < chunks.length →
        ∃ ck, (generateEmbeddingsBatch embed bs chunks)[i]? = some ck ∧
          (ck.embedding.isSome = true ↔
            ∃ vs, embed (((chunks.drop (bs * (i / bs))).take bs).map (fun k => k.text)) =
              Except.ok vs) :=
  geb_main embed bs hbs hlen chunks.length chunks le_rfl hnone

/-- Witness embedding backend: succeeds exactly on two-text batches. -/
def embedW : List String → Except String (List Nat) :=
  fun ts => if ts.length = 2 then Except.ok (List.replicate ts.length 7)
    else Except.error "fail"

/-- Witness chunk list: three chunks, so the second batch fails. -/
def chunksW : List (ChunkRec Nat) :=
  [⟨"c0", "a", none⟩, ⟨"c1", "b", none⟩, ⟨"c2", "c", none⟩]

/-- Witness for C8: three chunks in batches of two; the first batch gets
vectors, the singleton second batch fails and keeps its chunk. -/
theorem embeddings_batch_preserves_chunks_witness :
    0 < 2 ∧
      ((generateEmbeddingsBatch embedW 2 chunksW).map eraseEmb = chunksW ∧
        ∀ i, i < chunksW.length →
          ∃ ck, (generateEmbeddingsBatch embedW 2 chunksW)[i]? = some ck ∧
            (ck.embedding.isSome = true ↔
              ∃ vs, embedW (((chunksW.drop (2 * (i / 2))).take 2).map (fun k => k.text)) =
                Except.ok vs)) :=
  ⟨by decide,
    embeddings_batch_preserves_chunks embedW 2 chunksW (by decide)
      (by
        intro ts vs h
        unfold embedW at h
        split at h
        · cases h
          simp
        · simp at h)
      (by
        intro c hc
        unfold chunksW at hc
        simp only [List.mem_cons, List.not_mem_nil, or_false] at hc
        rcases hc with rfl | rfl | rfl
        all_goals rfl)⟩

/-! ## String lemmas -/

lemma lstrip_append_of_ne (a b : List Char) (h : lstrip a ≠ []) :
    lstrip (a ++ b) = lstrip a ++ b := by
  unfold lstrip at *
  rw [List.dropWhile_append]
  simp only [List.isEmpty_iff]
  rw [if_neg h]

lemma lstrip_append_of_allws (a b : List Char) (h : lstrip a = []) :
    lstrip (a ++ b) = lstrip b := by
  unfold lstrip at *
  rw [List.dropWhile_append]
  simp only [List.isEmpty_iff]
  rw [if_pos h]

lemma lstrip_eq_nil_iff (l : List Char) : lstrip l = [] ↔ ∀ c ∈ l, pyIsSpace c = true := by
  unfold lstrip
  exact List.dropWhile_eq_nil_iff

lemma lstrip_idem (l : List Char) : lstrip (lstrip l) = lstrip l := by
  unfold lstrip
  induction l with
  | nil => rfl
  | cons c cs ih =>
    by_cases h : pyIsSpace c = true
    · simp [List.dropWhile_cons, h, ih]
    · simp [List.dropWhile_cons, h]

lemma firstNonWs_lstrip (l : List Char) :
    ∀ c, (lstrip l).head? = some c → pyIsSpace c = false := by
  intro c hc
  unfold lstrip at hc
  induction l with
  | nil => simp at hc
  | cons x xs ih =>
    rw [List.dropWhile_cons] at hc
    by_cases h : pyIsSpace x = true
    · rw [if_pos h] at hc
      exact ih hc
    · rw [if_neg h] at hc
      simp only [List.head?_cons, Option.some_inj] at hc
      subst hc
      simpa using h

lemma lstrip_eq_self_of_firstNonWs (l : List Char)
    (h : ∀ c, l.head? = some c → pyIsSpace c = false) : lstrip l = l := by
  unfold lstrip
  cases l with
  | nil => rfl
  | cons c cs =>
    rw [List.dropWhile_cons, if_neg]
    simp [h c rfl]

lemma lstrip_length_le (l : List Char) : (lstrip l).length ≤ l.length := by
  unfold lstrip
  exact (List.dropWhile_sublist _).length_le

lemma takeWhile_append_lstrip (l : List Char) :
    l.takeWhile pyIsSpace ++ lstrip l = l := by
  unfold lstrip
  apply List.takeWhile_append_dropWhile

lemma lastNonWs_iff_firstNonWs_reverse (l : List Char) :
    lastNonWs l ↔ ∀ c, l.reverse.head? = some c → pyIsSpace c = false := by
  unfold lastNonWs
  constructor
  · intro h c hc
    exact h c (by rw [← List.head?_reverse]; exact hc)
  · intro h c hc
    exact h c (by rw [List.head?_reverse]; exact hc)

lemma rstrip_eq_self_of_lastNonWs (l : List Char) (h : lastNonWs l) : rstrip l = l := by
  have h2 := lstrip_eq_self_of_firstNonWs l.reverse
    ((lastNonWs_iff_firstNonWs_reverse l).mp h)
  unfold lstrip at h2
  unfold rstrip
  rw [h2, List.reverse_reverse]

lemma lastNonWs_rstrip (l : List Char) : lastNonWs (rstrip l) := by
  rw [lastNonWs_iff_firstNonWs_reverse]
  unfold rstrip
  rw [List.reverse_reverse]
  have := firstNonWs_lstrip l.reverse
  unfold lstrip at this
  exact this

lemma rstrip_append_ws (x : List Char) :
    rstrip x ++ (x.reverse.takeWhile pyIsSpace).reverse = x := by
  unfold rstrip
  rw [← List.reverse_append, List.takeWhile_append_dropWhile, List.reverse_reverse]

lemma head?_rstrip_of_ne (x : List Char) (h : rstrip x ≠ []) :
    (rstrip x).head? = x.head? := by
  conv_rhs => rw [← rstrip_append_ws x]
  rw [List.head?_append_of_ne_nil _ h]

lemma getLast?_lstrip_of_ne (x : List Char) (h : lstrip x ≠ []) :
    (lstrip x).getLast? = x.getLast? := by
  conv_rhs => rw [← takeWhile_append_lstrip x]
  rw [List.getLast?_append_of_ne_nil _ h]

lemma firstNonWs_pyStrip (l : List Char) :
    ∀ c, (pyStrip l).head? = some c → pyIsSpace c = false := by
  intro c hc
  by_cases h : pyStrip l = []
  · rw [h] at hc; simp at hc
  · unfold pyStrip at hc h
    rw [head?_rstrip_of_ne _ h] at hc
    exact firstNonWs_lstrip l c hc

lemma lastNonWs_pyStrip (l : List Char) : lastNonWs (pyStrip l) := lastNonWs_rstrip _

lemma pyStrip_eq_self (l : List Char)
    (h1 : ∀ c, l.head? = some c → pyIsSpace c = false) (h2 : lastNonWs l) :
    pyStrip l = l := by
  unfold pyStrip
  rw [lstrip_eq_self_of_firstNonWs l h1, rstrip_eq_self_of_lastNonWs l h2]

lemma pyStrip_idem (l : List Char) : pyStrip (pyStrip l) = pyStrip l :=
  pyStrip_eq_self _ (firstNonWs_pyStrip l) (lastNonWs_pyStrip l)

lemma pyStrip_length_le (l : List Char) : (pyStrip l).length ≤ l.length := by
  unfold pyStrip rstrip
  calc ((lstrip l).reverse.dropWhile pyIsSpace).reverse.length
      ≤ (lstrip l).reverse.length := by
        rw [List.length_reverse]
        exact (List.dropWhile_sublist _).length_le
    _ ≤ l.length := by
        rw [List.length_reverse]
        exact lstrip_length_le l

lemma rstrip_eq_nil_iff (x : List Char) :
    rstrip x = [] ↔ ∀ c ∈ x, pyIsSpace c = true := by
  unfold rstrip
  rw [List.reverse_eq_nil_iff, List.dropWhile_eq_nil_iff]
  constructor
  · intro h c hc
    exact h c (by simpa using hc)
  · intro h c hc
    exact h c (by simpa using hc)

lemma pyStrip_eq_nil_iff (l : List Char) :
    pyStrip l = [] ↔ ∀ c ∈ l, pyIsSpace c = true := by
  unfold pyStrip
  rw [rstrip_eq_nil_iff]
  constructor
  · intro h c hc
    rw [← takeWhile_append_lstrip l] at hc
    rcases List.mem_append.mp hc with hc | hc
    · exact List.mem_takeWhile_imp hc
    · exact h c hc
  · intro h c hc
    exact h c ((List.dropWhile_sublist _).subset hc)

lemma getOverlap_length_le (ts : TextSplitter) (hco : 1 ≤ ts.chunk_overlap)
    (cur : List Char) : (ts.getOverlap cur).length ≤ ts.chunk_overlap := by
  unfold TextSplitter.getOverlap
  by_cases h1 : cur.length ≤ ts.chunk_overlap
  · rw [if_pos h1]; exact h1
  · rw [if_neg h1, if_neg (by omega)]
    rw [List.length_drop]
    omega

lemma getOverlap_ne_nil (ts : TextSplitter) (cur : List Char) (h : cur ≠ []) :
    ts.getOverlap cur ≠ [] := by
  unfold TextSplitter.getOverlap
  by_cases h1 : cur.length ≤ ts.chunk_overlap
  · rw [if_pos h1]; exact h
  · rw [if_neg h1]
    by_cases h2 : ts.chunk_overlap = 0
    · rw [if_pos h2]; exact h
    · rw [if_neg h2]
      have : (cur.drop (cur.length - ts.chunk_overlap)).length ≠ 0 := by
        rw [List.length_drop]
        omega
      intro hx
      rw [hx] at this
      simp at this

lemma stGo_size (ts : TextSplitter) (hco : 1 ≤ ts.chunk_overlap) :
    ∀ (ps : List (List Char)) (chunks : List (List Char)) (cur : List Char),
      (∀ p ∈ ps, (pyStrip p).length + ts.chunk_overlap ≤ ts.chunk_size ∧
        (pyStrip p).length + ts.separator.length ≤ ts.chunk_size) →
      (∀ c ∈ chunks, c.length ≤ ts.chunk_size) → cur.length ≤ ts.chunk_size →
      ∀ c ∈ TextSplitter.stGo ts ps chunks cur, c.length ≤ ts.chunk_size := by
  intro ps
  induction ps with
  | nil =>
    intro chunks cur _ hch hcur c hc
    simp only [TextSplitter.stGo] at hc
    by_cases h : cur = []
    · rw [if_pos h] at hc
      exact hch c hc
    · rw [if_neg h] at hc
      rcases List.mem_append.mp hc with hc | hc
      · exact hch c hc
      · simp only [List.mem_singleton] at hc
        subst hc
        exact le_trans (pyStrip_length_le cur) hcur
  | cons p ps ih =>
    intro chunks cur hps hch hcur c hc
    have hp := hps p (by simp)
    have hps' : ∀ x ∈ ps, (pyStrip x).length + ts.chunk_overlap ≤ ts.chunk_size ∧
        (pyStrip x).length + ts.separator.length ≤ ts.chunk_size :=
      fun x hx => hps x (by simp [hx])
    simp only [TextSplitter.stGo] at hc
    by_cases hq : pyStrip p = []
    · rw [if_pos hq] at hc
      exact ih chunks cur hps' hch hcur c hc
    · rw [if_neg hq] at hc
      by_cases hov : cur.length + (pyStrip p).length + ts.separator.length > ts.chunk_size
      · rw [if_pos hov] at hc
        by_cases hcn : cur = []
        · exfalso
          rw [hcn] at hov
          simp only [List.length_nil, Nat.zero_add] at hov
          omega
        · rw [if_pos hcn] at hc
          refine ih _ _ hps' ?_ ?_ c hc
          · intro x hx
            rcases List.mem_append.mp hx with hx | hx
            · exact hch x hx
            · simp only [List.mem_singleton] at hx
              subst hx
              exact le_trans (pyStrip_length_le cur) hcur
          · rw [List.length_append]
            have := getOverlap_length_le ts hco cur
            omega
      · rw [if_neg hov] at hc
        by_cases hcn : cur = []
        · rw [if_neg (show ¬ cur ≠ [] by simp [hcn])] at hc
          refine ih _ _ hps' hch ?_ c hc
          omega
        · rw [if_pos hcn] at hc
          refine ih _ _ hps' hch ?_ c hc
          simp only [List.length_append]
          omega

/-- C2 (amended): the unamended size bound fails (see the counterexample:
overlap-seeded chunks may exceed `chunk_size`), but when `chunk_overlap ≥ 1`
and every separator-split part of the text, once trimmed, fits in
`chunk_size - chunk_overlap` and in `chunk_size - len(separator)`, every
chunk returned by `split_text` has length at most `chunk_size`.  The
separator is non-empty as in any Python run. -/
theorem split_size_bound_of_small_parts (ts : TextSplitter) (text : List Char)
    (_hsep : ts.separator ≠ []) (hco : 1 ≤ ts.chunk_overlap)
    (hparts : ∀ p ∈ pySplit ts.separator text,
      (pyStrip p).length + ts.chunk_overlap ≤ ts.chunk_size ∧
        (pyStrip p).length + ts.separator.length ≤ ts.chunk_size) :
    ∀ c ∈ ts.splitText text, c.length ≤ ts.chunk_size := by
  intro c hc
  unfold TextSplitter.splitText at hc
  by_cases h : pyStrip text = []
  · rw [if_pos h] at hc
    simp at hc
  · rw [if_neg h] at hc
    exact stGo_size ts hco _ [] [] hparts (by simp) (by simp) c hc

/-- Counterexample to C2 as stated: with `chunk_size = 10`,
`chunk_overlap = 5`, the default separator and input
`"aa bb\n\ncc ddddd"`, `split_text` returns the chunk
`"aa bbcc ddddd"` of length 13 > 10 which contains whitespace, so it is not
a single indivisible word returned verbatim. -/
theorem split_size_bound_counterexample :
    (TextSplitter.mk 10 5 "\n\n".toList).splitText "aa bb\n\ncc ddddd".toList =
        ["aa bb".toList, "aa bbcc ddddd".toList] ∧
      "aa bbcc ddddd".toList.length = 13 ∧
      "aa bbcc ddddd".toList.any pyIsSpace = true := by
  decide

/-- Witness for C2 (amended) at `chunk_size = 10`, `chunk_overlap = 3`. -/
theorem split_size_bound_of_small_parts_witness :
    (("\n\n".toList : List Char) ≠ [] ∧ 1 ≤ 3 ∧
      ∀ p ∈ pySplit "\n\n".toList "ab\n\ncd\n\nef".toList,
        (pyStrip p).length + 3 ≤ 10 ∧ (pyStrip p).length + ("\n\n".toList : List Char).length ≤ 10) ∧
      ∀ c ∈ (TextSplitter.mk 10 3 "\n\n".toList).splitText "ab\n\ncd\n\nef".toList,
        c.length ≤ 10 :=
  ⟨by decide,
    split_size_bound_of_small_parts (TextSplitter.mk 10 3 "\n\n".toList)
      "ab\n\ncd\n\nef".toList (by decide) (by decide) (by decide)⟩

/-! ## joinSep and pySplit lemmas -/

lemma joinSep_cons (sep : List Char) (q : List Char) (Q : List (List Char)) :
    joinSep sep (q :: Q) = q ++ (if Q.isEmpty then [] else sep ++ joinSep sep Q) := by
  cases Q with
  | nil => simp [joinSep]
  | cons r R => simp [joinSep]

lemma joinSep_ne_nil (sep : List Char) (q : List Char) (Q : List (List Char))
    (hq : q ≠ []) : joinSep sep (q :: Q) ≠ [] := by
  rw [joinSep_cons]
  simp [hq]

lemma joinSep_append (sep : List Char) (A B : List (List Char))
    (hA : A ≠ []) (hB : B ≠ []) :
    joinSep sep (A ++ B) = joinSep sep A ++ sep ++ joinSep sep B := by
  induction A with
  | nil => exact absurd rfl hA
  | cons x A' ih =>
    cases A' with
    | nil =>
      cases B with
      | nil => exact absurd rfl hB
      | cons b B' => simp [joinSep]
    | cons y A'' =>
      rw [List.cons_append, joinSep_cons, joinSep_cons (Q := y :: A'')]
      rw [ih (by simp)]
      have h1 : ((y :: A'') ++ B).isEmpty = false := by simp
      have h2 : (y :: A'' : List (List Char)).isEmpty = false := by simp
      rw [h1, h2]
      simp only [Bool.false_eq_true, if_false]
      simp [List.append_assoc]

lemma mem_joinSep (sep : List Char) (c : Char) (q : List Char) (Q : List (List Char))
    (hc : c ∈ q) (hq : q ∈ Q) : c ∈ joinSep sep Q := by
  induction Q with
  | nil => simp at hq
  | cons r R ih =>
    rw [joinSep_cons]
    rcases List.mem_cons.mp hq with rfl | hq'
    · exact List.mem_append.mpr (Or.inl hc)
    · refine List.mem_append.mpr (Or.inr ?_)
      have hR : (R : List (List Char)).isEmpty = false :=
        List.isEmpty_eq_false_iff_exists_mem.mpr ⟨q, hq'⟩
      rw [hR]
      simp only [Bool.false_eq_true, if_false]
      exact List.mem_append.mpr (Or.inr (ih hq'))

lemma pySplitGo_ne_nil (sep : List Char) :
    ∀ (l : List Char) (k : Nat) (cur : List Char), pySplitGo sep l k cur ≠ [] := by
  intro l
  induction l with
  | nil => intro k cur; simp [pySplitGo]
  | cons c cs ih =>
    intro k cur
    match k with
    | k + 1 => exact ih k cur
    | 0 =>
      simp only [pySplitGo]
      by_cases h : sep.isPrefixOf (c :: cs)
      · rw [if_pos h]; simp
      · rw [if_neg h]; exact ih 0 (cur ++ [c])

lemma isPrefixOf_exists (a : List Char) :
    ∀ b : List Char, a.isPrefixOf b = true → b = a ++ b.drop a.length := by
  induction a with
  | nil => intro b _; simp
  | cons x xs ih =>
    intro b h
    cases b with
    | nil => simp [List.isPrefixOf] at h
    | cons y ys =>
      simp only [List.isPrefixOf, Bool.and_eq_true, beq_iff_eq] at h
      obtain ⟨rfl, h2⟩ := h
      simp only [List.cons_append, List.length_cons, List.drop_succ_cons]
      rw [← ih ys h2]

lemma pySplitGo_join (sep : List Char) (hsep : sep ≠ []) :
    ∀ (l : List Char) (k : Nat) (cur : List Char),
      joinSep sep (pySplitGo sep l k cur) = cur ++ l.drop k := by
  intro l
  induction l with
  | nil =>
    intro k cur
    simp [pySplitGo, joinSep]
  | cons c cs ih =>
    intro k cur
    match k with
    | k + 1 =>
      rw [List.drop_succ_cons]
      exact ih k cur
    | 0 =>
      rw [List.drop_zero]
      simp only [pySplitGo]
      by_cases h : sep.isPrefixOf (c :: cs)
      · rw [if_pos h, joinSep_cons]
        have hne : (pySplitGo sep cs (sep.length - 1) []).isEmpty = false := by
          cases hx : pySplitGo sep cs (sep.length - 1) [] with
          | nil => exact absurd hx (pySplitGo_ne_nil sep cs (sep.length - 1) [])
          | cons a as => rfl
        rw [hne]
        simp only [Bool.false_eq_true, if_false]
        rw [ih (sep.length - 1) []]
        have hdec := isPrefixOf_exists sep (c :: cs) h
        have hsl : 1 ≤ sep.length := by
          cases sep with
          | nil => exact absurd rfl hsep
          | cons s ss => simp
        have hdrop : cs.drop (sep.length - 1) = (c :: cs).drop sep.length := by
          cases hs : sep.length with
          | zero => omega
          | succ n => simp [hs]
        rw [List.nil_append, hdrop, ← hdec]
      · rw [if_neg h]
        rw [ih 0 (cur ++ [c])]
        simp

/-- `pySplit` pieces re-joined with the separator reconstruct the input. -/
lemma pySplit_join (sep l : List Char) (hsep : sep ≠ []) :
    joinSep sep (pySplit sep l) = l := by
  unfold pySplit
  rw [if_neg hsep, pySplitGo_join sep hsep l 0 []]
  simp

lemma joinSep_head? (sep : List Char) (q : List Char) (R : List (List Char))
    (hq : q ≠ []) : (joinSep sep (q :: R)).head? = q.head? := by
  rw [joinSep_cons]
  exact List.head?_append_of_ne_nil _ hq

lemma joinSep_length_cons (sep : List Char) (q : List Char) (R : List (List Char)) :
    q.length ≤ (joinSep sep (q :: R)).length := by
  rw [joinSep_cons]
  rw [List.length_append]
  omega

lemma joinSep_ne_nil' (sep : List Char) (Q : List (List Char)) (hQ : Q ≠ [])
    (hel : ∀ q ∈ Q, q ≠ []) : joinSep sep Q ≠ [] := by
  cases Q with
  | nil => exact absurd rfl hQ
  | cons q R => exact joinSep_ne_nil sep q R (hel q (by simp))

lemma lastNonWs_append (a b : List Char) (hb : b ≠ []) (h : lastNonWs b) :
    lastNonWs (a ++ b) := by
  intro c hc
  rw [List.getLast?_append_of_ne_nil _ hb] at hc
  exact h c hc

lemma lastNonWs_joinSep (sep : List Char) (Q : List (List Char))
    (hel : ∀ q ∈ Q, q ≠ [] ∧ lastNonWs q) : lastNonWs (joinSep sep Q) := by
  induction Q with
  | nil => intro c hc; simp [joinSep] at hc
  | cons q R ih =>
    rw [joinSep_cons]
    cases R with
    | nil =>
      simp only [List.isEmpty_nil, if_true, List.append_nil]
      exact (hel q (by simp)).2
    | cons r R' =>
      simp only [List.isEmpty_cons, Bool.false_eq_true, if_false]
      refine lastNonWs_append _ _ ?_ ?_
      · refine fun hx => ?_
        have := joinSep_ne_nil sep r R' (hel r (by simp)).1
        rcases List.append_eq_nil.mp hx with ⟨_, h2⟩
        exact this h2
      · refine lastNonWs_append _ _ ?_ ?_
        · exact joinSep_ne_nil sep r R' (hel r (by simp)).1
        · exact ih (fun x hx => hel x (by simp [hx]))

lemma joinSep_length_ge (sep : List Char) (Q1 : List (List Char)) (q : List Char)
    (rest : List (List Char)) :
    (joinSep sep Q1).length + q.length ≤ (joinSep sep (Q1 ++ q :: rest)).length := by
  cases Q1 with
  | nil =>
    simp only [joinSep, List.length_nil, List.nil_append, Nat.zero_add]
    exact joinSep_length_cons sep q rest
  | cons x R =>
    rw [joinSep_append sep (x :: R) (q :: rest) (by simp) (by simp)]
    have := joinSep_length_cons sep q rest
    simp only [List.length_append]
    omega

/-- Parts after per-part stripping and dropping of empties, as `split_text`
processes them. -/
def filterStrip (ps : List (List Char)) : List (List Char) :=
  (ps.map pyStrip).filter (fun q => !q.isEmpty)

lemma filterStrip_cons_nil (p : List Char) (ps : List (List Char))
    (h : pyStrip p = []) : filterStrip (p :: ps) = filterStrip ps := by
  simp [filterStrip, List.filter_cons, h]

lemma filterStrip_cons_ne (p : List Char) (ps : List (List Char))
    (h : pyStrip p ≠ []) : filterStrip (p :: ps) = pyStrip p :: filterStrip ps := by
  simp only [filterStrip, List.map_cons, List.filter_cons]
  rw [if_pos]
  simp [List.isEmpty_iff, h]

/-- `split_text`'s separator-normalized form of the input: split on the
separator, strip each part, drop empties, re-join with the separator. -/
def TextSplitter.normalizedText (ts : TextSplitter) (text : List Char) : List Char :=
  joinSep ts.separator (filterStrip (pySplit ts.separator text))

lemma pyStrip_joinSep (sep : List Char) (Q : List (List Char)) (hQ : Q ≠ [])
    (hel : ∀ q ∈ Q, q ≠ [] ∧ pyStrip q = q) :
    pyStrip (joinSep sep Q) = joinSep sep Q := by
  refine pyStrip_eq_self _ ?_ ?_
  · cases Q with
    | nil => exact absurd rfl hQ
    | cons q R =>
      intro c hc
      rw [joinSep_head? sep q R (hel q (by simp)).1] at hc
      have hqs := (hel q (by simp)).2
      refine firstNonWs_pyStrip q c ?_
      rw [hqs]
      exact hc
  · refine lastNonWs_joinSep sep Q (fun q hq => ⟨(hel q hq).1, ?_⟩)
    have := lastNonWs_pyStrip q
    rw [(hel q hq).2] at this
    exact this

lemma stGo_norm (ts : TextSplitter) (N : List Char)
    (hNlen : N.length + ts.separator.length ≤ ts.chunk_size) :
    ∀ (ps : List (List Char)) (Q1 : List (List Char)),
      (∀ q ∈ Q1, q ≠ [] ∧ pyStrip q = q) →
      (Q1 ≠ [] ∨ filterStrip ps ≠ []) →
      N = joinSep ts.separator (Q1 ++ filterStrip ps) →
      TextSplitter.stGo ts ps [] (joinSep ts.separator Q1) = [N] := by
  intro ps
  induction ps with
  | nil =>
    intro Q1 hel hne hN
    have hQ1 : Q1 ≠ [] := by
      rcases hne with h | h
      · exact h
      · exact absurd rfl h
    have hcur : joinSep ts.separator Q1 ≠ [] :=
      joinSep_ne_nil' _ Q1 hQ1 (fun q hq => (hel q hq).1)
    simp only [TextSplitter.stGo]
    rw [if_neg hcur]
    have hNQ : N = joinSep ts.separator Q1 := by
      rw [hN]
      simp [filterStrip]
    rw [← hNQ, hNQ, pyStrip_joinSep _ Q1 hQ1 hel, ← hNQ]
    rfl
  | cons p ps ih =>
    intro Q1 hel hne hN
    simp only [TextSplitter.stGo]
    by_cases hq : pyStrip p = []
    · rw [if_pos hq]
      refine ih Q1 hel ?_ ?_
      · rcases hne with h | h
        · exact Or.inl h
        · rw [filterStrip_cons_nil p ps hq] at h
          exact Or.inr h
      · rw [hN, filterStrip_cons_nil p ps hq]
    · rw [if_neg hq]
      rw [filterStrip_cons_ne p ps hq] at hN
      have hbound : (joinSep ts.separator Q1).length + (pyStrip p).length ≤ N.length := by
        rw [hN]
        exact joinSep_length_ge ts.separator Q1 (pyStrip p) (filterStrip ps)
      have hov : ¬ ((joinSep ts.separator Q1).length + (pyStrip p).length +
          ts.separator.length > ts.chunk_size) := by
        omega
      rw [if_neg hov]
      by_cases hQ1 : Q1 = []
      · subst hQ1
        have hcur : (joinSep ts.separator ([] : List (List Char))) = [] := rfl
        rw [hcur]
        rw [if_neg (show ¬ ([] : List Char) ≠ [] by simp)]
        have := ih [pyStrip p] (by
          intro x hx
          simp only [List.mem_singleton] at hx
          subst hx
          exact ⟨hq, pyStrip_idem p⟩) (Or.inl (by simp)) (by
            rw [hN]
            rfl)
        simpa [joinSep] using this
      · have hcur : joinSep ts.separator Q1 ≠ [] :=
          joinSep_ne_nil' _ Q1 hQ1 (fun q hq' => (hel q hq').1)
        rw [if_pos hcur]
        have hjoin : joinSep ts.separator Q1 ++ ts.separator ++ pyStrip p =
            joinSep ts.separator (Q1 ++ [pyStrip p]) := by
          rw [joinSep_append ts.separator Q1 [pyStrip p] hQ1 (by simp)]
          rfl
        rw [hjoin]
        refine ih (Q1 ++ [pyStrip p]) ?_ (Or.inl (by simp)) ?_
        · intro x hx
          rcases List.mem_append.mp hx with hx | hx
          · exact hel x hx
          · simp only [List.mem_singleton] at hx
            subst hx
            exact ⟨hq, pyStrip_idem p⟩
        · rw [hN, List.append_assoc]
          rfl

/-- C4 (amended): `split_text` does not return the trimmed input for every
short text (see the counterexample — each part is trimmed separately and
empty parts are dropped).  It returns exactly one chunk equal to the
separator-normalized form `N` of the input (split on the separator, strip
each part, drop empties, re-join with the separator) whenever `N` is
non-empty and `len(N) + len(separator) ≤ chunk_size` — in particular for
every short-enough text. -/
theorem normalized_short_text_single_chunk (ts : TextSplitter) (text : List Char)
    (hsep : ts.separator ≠ []) (hne : ts.normalizedText text ≠ [])
    (hlen : (ts.normalizedText text).length + ts.separator.length ≤ ts.chunk_size) :
    ts.splitText text = [ts.normalizedText text] := by
  have hfs : filterStrip (pySplit ts.separator text) ≠ [] := by
    intro hx
    apply hne
    unfold TextSplitter.normalizedText
    rw [hx]
    rfl
  have hguard : pyStrip text ≠ [] := by
    obtain ⟨q, hq⟩ : ∃ q, q ∈ filterStrip (pySplit ts.separator text) := by
      cases hx : filterStrip (pySplit ts.separator text) with
      | nil => exact absurd hx hfs
      | cons a as => exact ⟨a, by simp [hx]⟩
    unfold filterStrip at hq
    obtain ⟨hmem, hqe⟩ := List.mem_filter.mp hq
    obtain ⟨p, hp, rfl⟩ := List.mem_map.mp hmem
    have hqne : pyStrip p ≠ [] := by
      simpa using hqe
    obtain ⟨c, hcp, hcw⟩ : ∃ c ∈ p, pyIsSpace c = false := by
      by_contra hx
      push_neg at hx
      apply hqne
      rw [pyStrip_eq_nil_iff]
      intro c hc
      have := hx c hc
      simpa using this
    have hct : c ∈ text := by
      rw [← pySplit_join ts.separator text hsep]
      exact mem_joinSep ts.separator c p _ hcp hp
    intro hx
    rw [pyStrip_eq_nil_iff] at hx
    rw [hx c hct] at hcw
    simp at hcw
  unfold TextSplitter.splitText
  rw [if_neg hguard]
  have := stGo_norm ts (ts.normalizedText text) hlen (pySplit ts.separator text) []
    (by intro q hq; simp at hq) (Or.inr hfs) (by
      unfold TextSplitter.normalizedText
      rfl)
  simpa [joinSep] using this

/-- Counterexample to C4 as stated: `"a \n\nb"` is shorter than the
default `chunk_size = 1000` and contains non-whitespace, yet `split_text`
returns `["a\n\nb"]`, not the trimmed input `"a \n\nb"` (the space
before the separator is lost to per-part stripping). -/
theorem short_text_single_chunk_counterexample :
    "a \n\nb".toList.length < 1000 ∧ hasNonWs "a \n\nb".toList = true ∧
      (TextSplitter.mk 1000 200 "\n\n".toList).splitText "a \n\nb".toList =
        ["a\n\nb".toList] ∧
      ("a\n\nb".toList : List Char) ≠ pyStrip "a \n\nb".toList := by
  decide

/-- Witness for C4 (amended) on `"ab \n\n cd"` with `chunk_size = 100`. -/
theorem normalized_short_text_single_chunk_witness :
    (("\n\n".toList : List Char) ≠ [] ∧
        (TextSplitter.mk 100 20 "\n\n".toList).normalizedText "ab \n\n cd".toList ≠ [] ∧
        ((TextSplitter.mk 100 20 "\n\n".toList).normalizedText "ab \n\n cd".toList).length +
            ("\n\n".toList : List Char).length ≤ 100) ∧
      (TextSplitter.mk 100 20 "\n\n".toList).splitText "ab \n\n cd".toList =
        [(TextSplitter.mk 100 20 "\n\n".toList).normalizedText "ab \n\n cd".toList] :=
  ⟨⟨by decide, by decide, by decide⟩,
    normalized_short_text_single_chunk (TextSplitter.mk 100 20 "\n\n".toList)
      "ab \n\n cd".toList (by decide) (by decide) (by decide)⟩

/-! ## Sentence-split and word-split lemmas -/

lemma isSentPunct_not_ws (c : Char) (h : isSentPunct c = true) : pyIsSpace c = false := by
  unfold isSentPunct at h
  unfold pyIsSpace
  rcases Bool.or_eq_true_iff.mp h with h1 | h1
  · rcases Bool.or_eq_true_iff.mp h1 with h2 | h2 <;> (simp at h2; subst h2; rfl)
  · simp at h1; subst h1; rfl

/-- The sentence splitter always returns at least one piece. -/
lemma sentGo_ne_nil : ∀ (l : List Char) (m : Bool) (cur pr : List Char),
    sentGo l m cur pr ≠ [] := by
  intro l
  induction l with
  | nil => intro m cur pr; simp [sentGo]
  | cons c cs ih =>
    intro m cur pr
    cases m with
    | true =>
      simp only [sentGo]
      by_cases h1 : pyIsSpace c = true
      · rw [if_pos h1]; exact ih true cur pr
      · rw [if_neg h1]
        by_cases h2 : isSentPunct c = true
        · rw [if_pos h2]; exact ih false cur (pr ++ [c])
        · rw [if_neg h2]; exact ih false (cur ++ pr ++ [c]) []
    | false =>
      simp only [sentGo]
      by_cases h2 : isSentPunct c = true
      · rw [if_pos h2]; exact ih false cur (pr ++ [c])
      · rw [if_neg h2]
        by_cases h3 : pr ≠ [] ∧ pyIsSpace c = true
        · rw [if_pos h3]; simp
        · rw [if_neg h3]; exact ih false (cur ++ pr ++ [c]) []

/-- Every non-empty piece of the sentence splitter starts with a
non-whitespace character (under the stated accumulator invariants). -/
lemma sentGo_pieces : ∀ (l : List Char) (m : Bool) (cur pr : List Char),
    (m = true → cur = [] ∧ pr = []) →
    (∀ c, cur.head? = some c → pyIsSpace c = false) →
    (∀ c ∈ pr, isSentPunct c = true) →
    (m = false → cur = [] → pr = [] →
      ∀ c, l.head? = some c → pyIsSpace c = false) →
    ∀ piece ∈ sentGo l m cur pr, ∀ c, piece.head? = some c → pyIsSpace c = false := by
  intro l
  induction l with
  | nil =>
    intro m cur pr _ hcur hpr _ piece hp c hc
    simp only [sentGo, List.mem_singleton] at hp
    subst hp
    cases hcu : cur with
    | nil =>
      rw [hcu] at hc
      simp only [List.nil_append] at hc
      cases pr with
      | nil => simp at hc
      | cons d ds =>
        simp only [List.head?_cons, Option.some_inj] at hc
        subst hc
        exact isSentPunct_not_ws d (hpr d (by simp))
    | cons d ds =>
      rw [hcu] at hc
      rw [List.head?_append_of_ne_nil _ (by simp)] at hc
      rw [← hcu] at hc
      exact hcur c hc
  | cons ch cs ih =>
    intro m cur pr hm hcur hpr hstart piece hp c hc
    cases m with
    | true =>
      obtain ⟨rfl, rfl⟩ := hm rfl
      simp only [sentGo] at hp
      by_cases h1 : pyIsSpace ch = true
      · rw [if_pos h1] at hp
        exact ih true [] [] (fun _ => ⟨rfl, rfl⟩) (by simp) (by simp) (by simp) piece hp c hc
      · rw [if_neg h1] at hp
        by_cases h2 : isSentPunct ch = true
        · rw [if_pos h2] at hp
          refine ih false [] [ch] (by simp) (by simp) ?_ (by simp) piece hp c hc
          intro d hd
          simp only [List.mem_singleton] at hd
          subst hd
          exact h2
        · rw [if_neg h2] at hp
          refine ih false [ch] [] (by simp) ?_ (by simp) (by simp) piece hp c hc
          intro d hd
          simp only [List.head?_cons, Option.some_inj] at hd
          subst hd
          simpa using h1
    | false =>
      simp only [sentGo] at hp
      by_cases h2 : isSentPunct ch = true
      · rw [if_pos h2] at hp
        refine ih false cur (pr ++ [ch]) (by simp) hcur ?_ (by simp) piece hp c hc
        intro d hd
        rcases List.mem_append.mp hd with hd | hd
        · exact hpr d hd
        · simp only [List.mem_singleton] at hd
          subst hd
          exact h2
      · rw [if_neg h2] at hp
        by_cases h3 : pr ≠ [] ∧ pyIsSpace ch = true
        · rw [if_pos h3] at hp
          rcases List.mem_cons.mp hp with rfl | hp'
          · exact hcur c hc
          · exact ih true [] [] (fun _ => ⟨rfl, rfl⟩) (by simp) (by simp) (by simp)
              piece hp' c hc
        · rw [if_neg h3] at hp
          refine ih false (cur ++ pr ++ [ch]) [] (by simp) ?_ (by simp) (by simp)
            piece hp c hc
          intro d hd
          cases hcu : cur with
          | cons e es =>
            rw [hcu] at hd
            rw [List.append_assoc, List.head?_append_of_ne_nil _ (by simp)] at hd
            rw [← hcu] at hd
            exact hcur d hd
          | nil =>
            rw [hcu] at hd
            simp only [List.nil_append] at hd
            cases hpre : pr with
            | cons f fs =>
              rw [hpre] at hd
              rw [List.head?_append_of_ne_nil _ (by simp)] at hd
              simp only [List.head?_cons, Option.some_inj] at hd
              rw [← hd]
              exact isSentPunct_not_ws f (hpr f (by simp [hpre]))
            | nil =>
              rw [hpre] at hd
              simp only [List.nil_append, List.head?_cons, Option.some_inj] at hd
              rw [← hd]
              exact hstart rfl hcu hpre ch (by simp)

/-- For stripped input, every non-empty sentence piece starts non-whitespace. -/
lemma sentSplit_pieces (p : List Char) (hp : pyStrip p = p) :
    ∀ piece ∈ sentSplit p, ∀ c, piece.head? = some c → pyIsSpace c = false := by
  refine sentGo_pieces p false [] [] (by simp) (by simp) (by simp) ?_
  intro _ _ _ c hc
  have := firstNonWs_pyStrip p
  rw [hp] at this
  exact this c hc

lemma lastNonWs_tail (ch : Char) (cs : List Char) (h : lastNonWs (ch :: cs))
    (hcs : cs ≠ []) : lastNonWs cs := by
  intro c hc
  refine h c ?_
  cases cs with
  | nil => exact absurd rfl hcs
  | cons d ds => rw [List.getLast?_cons_cons]; exact hc

lemma lastNonWs_single (ch : Char) (cs : List Char) (h : lastNonWs (ch :: cs))
    (hcs : cs = []) : pyIsSpace ch = false := by
  subst hcs
  exact h ch rfl

/-- If the input ends with a non-whitespace character, the last sentence
piece is non-empty. -/
lemma sentGo_getLast : ∀ (l : List Char) (m : Bool) (cur pr : List Char),
    (l = [] → cur ++ pr ≠ []) → (l ≠ [] → lastNonWs l) →
    ∀ x, (sentGo l m cur pr).getLast? = some x → x ≠ [] := by
  intro l
  induction l with
  | nil =>
    intro m cur pr h1 _ x hx
    simp only [sentGo, List.getLast?_singleton, Option.some_inj] at hx
    subst hx
    exact h1 rfl
  | cons ch cs ih =>
    intro m cur pr _ h2 x hx
    have hlast := h2 (by simp)
    have hcs_ne : cs = [] → pyIsSpace ch = false := lastNonWs_single ch cs hlast
    have hcs_last : cs ≠ [] → lastNonWs cs := lastNonWs_tail ch cs hlast
    cases m with
    | true =>
      simp only [sentGo] at hx
      by_cases hw : pyIsSpace ch = true
      · rw [if_pos hw] at hx
        refine ih true cur pr ?_ hcs_last x hx
        intro hnil
        rw [hcs_ne hnil] at hw
        simp at hw
      · rw [if_neg hw] at hx
        by_cases hp : isSentPunct ch = true
        · rw [if_pos hp] at hx
          exact ih false cur (pr ++ [ch]) (fun _ => by simp) hcs_last x hx
        · rw [if_neg hp] at hx
          exact ih false (cur ++ pr ++ [ch]) [] (fun _ => by simp) hcs_last x hx
    | false =>
      simp only [sentGo] at hx
      by_cases hp : isSentPunct ch = true
      · rw [if_pos hp] at hx
        exact ih false cur (pr ++ [ch]) (fun _ => by simp) hcs_last x hx
      · rw [if_neg hp] at hx
        by_cases he : pr ≠ [] ∧ pyIsSpace ch = true
        · rw [if_pos he] at hx
          have hrest := sentGo_ne_nil cs true [] []
          cases hr : sentGo cs true [] [] with
          | nil => exact absurd hr hrest
          | cons y ys =>
            rw [hr, List.getLast?_cons_cons] at hx
            rw [← hr] at hx
            refine ih true [] [] ?_ hcs_last x hx
            intro hnil
            rw [hcs_ne hnil] at he
            simp at he
        · rw [if_neg he] at hx
          exact ih false (cur ++ pr ++ [ch]) [] (fun _ => by simp) hcs_last x hx

/-- For non-empty input ending non-whitespace, the last sentence piece is
non-empty. -/
lemma sentSplit_getLast (p : List Char) (hne : p ≠ []) (hlast : lastNonWs p) :
    ∃ S, (sentSplit p).getLast? = some S ∧ S ≠ [] := by
  have h1 := sentGo_ne_nil p false [] []
  cases hr : sentGo p false [] [] with
  | nil => exact absurd hr h1
  | cons y ys =>
    have : (sentSplit p).getLast? = some ((y :: ys).getLast (by simp)) := by
      unfold sentSplit
      rw [hr]
      exact List.getLast?_eq_getLast _ _
    refine ⟨_, this, ?_⟩
    refine sentGo_getLast p false [] [] (fun h => absurd h hne) (fun _ => hlast) _ ?_
    unfold sentSplit at this
    exact this

/-- Words produced by `str.split()` are non-empty and whitespace-free. -/
lemma wordsGo_mem : ∀ (l : List Char) (cur : List Char),
    (∀ c ∈ cur, pyIsSpace c = false) →
    ∀ w ∈ wordsGo l cur, w ≠ [] ∧ ∀ c ∈ w, pyIsSpace c = false := by
  intro l
  induction l with
  | nil =>
    intro cur hcur w hw
    simp only [wordsGo] at hw
    by_cases h : cur = []
    · rw [if_pos h] at hw
      simp at hw
    · rw [if_neg h] at hw
      simp only [List.mem_singleton] at hw
      subst hw
      exact ⟨h, hcur⟩
  | cons c cs ih =>
    intro cur hcur w hw
    simp only [wordsGo] at hw
    by_cases hws : pyIsSpace c = true
    · rw [if_pos hws] at hw
      by_cases h : cur = []
      · rw [if_pos h] at hw
        exact ih [] (by simp) w hw
      · rw [if_neg h] at hw
        rcases List.mem_cons.mp hw with rfl | hw'
        · exact ⟨h, hcur⟩
        · exact ih [] (by simp) w hw'
    · rw [if_neg hws] at hw
      refine ih (cur ++ [c]) ?_ w hw
      intro d hd
      rcases List.mem_append.mp hd with hd | hd
      · exact hcur d hd
      · simp only [List.mem_singleton] at hd
        subst hd
        simpa using hws

lemma pyWords_mem (l : List Char) :
    ∀ w ∈ pyWords l, w ≠ [] ∧ ∀ c ∈ w, pyIsSpace c = false :=
  wordsGo_mem l [] (by simp)

lemma wordsGo_ne_nil : ∀ (l : List Char) (cur : List Char),
    (cur ≠ [] ∨ hasNonWs l = true) → wordsGo l cur ≠ [] := by
  intro l
  induction l with
  | nil =>
    intro cur h
    rcases h with h | h
    · simp only [wordsGo]
      rw [if_neg h]
      simp
    · simp [hasNonWs] at h
  | cons c cs ih =>
    intro cur h
    simp only [wordsGo]
    by_cases hws : pyIsSpace c = true
    · rw [if_pos hws]
      by_cases hc : cur = []
      · rw [if_pos hc]
        refine ih [] (Or.inr ?_)
        rcases h with h | h
        · exact absurd hc h
        · simp only [hasNonWs, List.any_cons, Bool.or_eq_true] at h
          rcases h with h | h
          · rw [hws] at h; simp at h
          · simpa [hasNonWs] using h
      · rw [if_neg hc]
        simp
    · rw [if_neg hws]
      exact ih (cur ++ [c]) (Or.inl (by simp))

lemma pyWords_ne_nil (l : List Char) (h : hasNonWs l = true) : pyWords l ≠ [] :=
  wordsGo_ne_nil l [] (Or.inr h)

lemma hasNonWs_of_head (s : List Char) (hne : s ≠ [])
    (hh : ∀ c, s.head? = some c → pyIsSpace c = false) : hasNonWs s = true := by
  cases s with
  | nil => exact absurd rfl hne
  | cons c cs =>
    simp only [hasNonWs, List.any_cons, Bool.or_eq_true]
    exact Or.inl (by simp [hh c rfl])

lemma pyTailSlice_subset {α : Type} (k : Nat) (l : List α) : ∀ x ∈ pyTailSlice k l, x ∈ l := by
  intro x hx
  unfold pyTailSlice at hx
  by_cases h : k = 0
  · rw [if_pos h] at hx; exact hx
  · rw [if_neg h] at hx
    exact (List.drop_sublist _ _).subset hx

lemma sbwGo_elems (ts : TextSplitter) :
    ∀ (ws : List (List Char)) (chunks curW : List (List Char)) (curLen : Nat),
      (∀ x ∈ chunks, x ≠ []) → (∀ w ∈ curW, w ≠ []) → (∀ w ∈ ws, w ≠ []) →
      ∀ x ∈ TextSplitter.sbwGo ts ws chunks curW curLen, x ≠ [] := by
  intro ws
  induction ws with
  | nil =>
    intro chunks curW curLen hch hcw _ x hx
    simp only [TextSplitter.sbwGo] at hx
    by_cases h : curW = []
    · rw [if_pos h] at hx
      exact hch x hx
    · rw [if_neg h] at hx
      rcases List.mem_append.mp hx with hx | hx
      · exact hch x hx
      · simp only [List.mem_singleton] at hx
        subst hx
        cases hcw' : curW with
        | nil => exact absurd hcw' h
        | cons w ws' =>
          exact joinSep_ne_nil [' '] w ws' (hcw w (by simp [hcw']))
  | cons w ws ih =>
    intro chunks curW curLen hch hcw hws x hx
    have hw : w ≠ [] := hws w (by simp)
    have hws' : ∀ v ∈ ws, v ≠ [] := fun v hv => hws v (by simp [hv])
    simp only [TextSplitter.sbwGo] at hx
    by_cases hov : curLen + (w.length + 1) > ts.chunk_size
    · rw [if_pos hov] at hx
      by_cases hc : curW ≠ []
      · rw [if_pos hc] at hx
        refine ih _ _ _ ?_ ?_ hws' x hx
        · intro y hy
          rcases List.mem_append.mp hy with hy | hy
          · exact hch y hy
          · simp only [List.mem_singleton] at hy
            subst hy
            cases hcw' : curW with
            | nil => exact absurd hcw' hc
            | cons v vs => exact joinSep_ne_nil [' '] v vs (hcw v (by simp [hcw']))
        · intro y hy
          rcases List.mem_append.mp hy with hy | hy
          · exact hcw y (pyTailSlice_subset _ _ y hy)
          · simp only [List.mem_singleton] at hy
            subst hy
            exact hw
      · rw [if_neg hc] at hx
        refine ih _ _ _ ?_ (by simp) hws' x hx
        intro y hy
        rcases List.mem_append.mp hy with hy | hy
        · exact hch y hy
        · simp only [List.mem_singleton] at hy
          subst hy
          exact hw
    · rw [if_neg hov] at hx
      refine ih _ _ _ hch ?_ hws' x hx
      intro y hy
      rcases List.mem_append.mp hy with hy | hy
      · exact hcw y hy
      · simp only [List.mem_singleton] at hy
        subst hy
        exact hw

lemma sbwGo_ne_nil (ts : TextSplitter) :
    ∀ (ws : List (List Char)) (chunks curW : List (List Char)) (curLen : Nat),
      (chunks ≠ [] ∨ curW ≠ [] ∨ ws ≠ []) →
      TextSplitter.sbwGo ts ws chunks curW curLen ≠ [] := by
  intro ws
  induction ws with
  | nil =>
    intro chunks curW curLen h
    simp only [TextSplitter.sbwGo]
    by_cases hc : curW = []
    · rw [if_pos hc]
      rcases h with h | h | h
      · exact h
      · exact absurd hc h
      · exact absurd rfl h
    · rw [if_neg hc]
      simp
  | cons w ws ih =>
    intro chunks curW curLen _
    simp only [TextSplitter.sbwGo]
    by_cases hov : curLen + (w.length + 1) > ts.chunk_size
    · rw [if_pos hov]
      by_cases hc : curW ≠ []
      · rw [if_pos hc]
        exact ih _ _ _ (Or.inl (by simp))
      · rw [if_neg hc]
        exact ih _ _ _ (Or.inl (by simp))
    · rw [if_neg hov]
      exact ih _ _ _ (Or.inr (Or.inl (by simp)))

lemma splitByWords_ne_nil (ts : TextSplitter) (s : List Char) (h : hasNonWs s = true) :
    ts.splitByWords s ≠ [] := by
  unfold TextSplitter.splitByWords
  refine sbwGo_ne_nil ts _ _ _ _ (Or.inr (Or.inr (pyWords_ne_nil s h)))

lemma splitByWords_elems (ts : TextSplitter) (s : List Char) :
    ∀ x ∈ ts.splitByWords s, x ≠ [] := by
  unfold TextSplitter.splitByWords
  exact sbwGo_elems ts _ _ _ _ (by simp) (by simp) (fun w hw => (pyWords_mem s w hw).1)

lemma hasNonWs_iff_pyStrip_ne (l : List Char) : hasNonWs l = true ↔ pyStrip l ≠ [] := by
  rw [Ne, pyStrip_eq_nil_iff]
  unfold hasNonWs
  rw [List.any_eq_true]
  constructor
  · rintro ⟨c, hc, hcw⟩ hall
    rw [hall c hc] at hcw
    simp at hcw
  · intro h
    by_contra hx
    push_neg at hx
    apply h
    intro c hc
    have := hx c hc
    simpa using this

/-- `_split_large_part`'s loop cannot return an empty list when seeded with
pieces whose last element is non-empty. -/
lemma slpGo_ne (ts : TextSplitter) :
    ∀ (pieces : List (List Char)) (chunks : List (List Char)) (cur : List Char),
      (∀ piece ∈ pieces, ∀ c, piece.head? = some c → pyIsSpace c = false) →
      (chunks ≠ [] ∨ cur ≠ [] ∨ (∃ S, pieces.getLast? = some S ∧ S ≠ [])) →
      TextSplitter.slpGo ts pieces chunks cur ≠ [] := by
  intro pieces
  induction pieces with
  | nil =>
    intro chunks cur _ h
    simp only [TextSplitter.slpGo]
    by_cases hc : cur = []
    · rw [if_pos hc]
      rcases h with h | h | ⟨S, hS, _⟩
      · exact h
      · exact absurd hc h
      · simp at hS
    · rw [if_neg hc]
      simp
  | cons s ss ih =>
    intro chunks cur hpieces h
    have hpieces' : ∀ piece ∈ ss, ∀ c, piece.head? = some c → pyIsSpace c = false :=
      fun piece hp => hpieces piece (by simp [hp])
    simp only [TextSplitter.slpGo]
    by_cases hov : cur.length + s.length > ts.chunk_size
    · rw [if_pos hov]
      by_cases hc : cur ≠ []
      · rw [if_pos hc]
        exact ih _ _ hpieces' (Or.inl (by simp))
      · rw [if_neg hc]
        push_neg at hc
        have hs : s ≠ [] := by
          intro hx
          rw [hc, hx] at hov
          simp at hov
        have hsn : hasNonWs s = true :=
          hasNonWs_of_head s hs (hpieces s (by simp))
        exact ih _ _ hpieces' (Or.inl (by
          intro hx
          rcases List.append_eq_nil.mp hx with ⟨_, h2⟩
          exact splitByWords_ne_nil ts s hsn h2))
    · rw [if_neg hov]
      by_cases hc : cur ≠ []
      · rw [if_pos hc]
        exact ih _ _ hpieces' (Or.inr (Or.inl (by simp)))
      · rw [if_neg hc]
        push_neg at hc
        by_cases hs : s = []
        · refine ih _ _ hpieces' ?_
          subst hs
          rcases h with h | h | ⟨S, hS, hSne⟩
          · exact Or.inl h
          · exact absurd hc h
          · cases hss : ss with
            | nil =>
              rw [hss] at hS
              simp only [List.getLast?_singleton, Option.some_inj] at hS
              exact absurd hS.symm hSne
            | cons t ts' =>
              refine Or.inr (Or.inr ⟨S, ?_, hSne⟩)
              rw [hss] at hS
              rw [List.getLast?_cons_cons] at hS
              exact hS
        · exact ih _ _ hpieces' (Or.inr (Or.inl hs))

/-- `_split_large_part` of a stripped non-empty part is non-empty. -/
lemma splitLargePart_ne_nil (ts : TextSplitter) (p : List Char)
    (hp : pyStrip p = p) (hne : p ≠ []) : ts.splitLargePart p ≠ [] := by
  unfold TextSplitter.splitLargePart
  have hlast : lastNonWs p := by
    have := lastNonWs_pyStrip p
    rw [hp] at this
    exact this
  exact slpGo_ne ts _ [] [] (sentSplit_pieces p hp)
    (Or.inr (Or.inr (sentSplit_getLast p hne hlast)))

/-- A singleton result of `_split_large_part`'s loop is a non-empty chunk. -/
lemma slpGo_singleton (ts : TextSplitter) :
    ∀ (pieces : List (List Char)) (chunks : List (List Char)) (cur : List Char),
      (∀ piece ∈ pieces, ∀ c, piece.head? = some c → pyIsSpace c = false) →
      (chunks = [] → (cur = [] ∨ hasNonWs cur = true)) →
      (cur = [] → ∀ x ∈ chunks, x ≠ []) →
      ∀ c, TextSplitter.slpGo ts pieces chunks cur = [c] → c ≠ [] := by
  intro pieces
  induction pieces with
  | nil =>
    intro chunks cur _ hA hB c hc
    simp only [TextSplitter.slpGo] at hc
    by_cases h : cur = []
    · rw [if_pos h] at hc
      exact hB h c (by rw [hc]; simp)
    · rw [if_neg h] at hc
      have hch : chunks = [] ∧ c = pyStrip cur := by
        cases chunks with
        | nil => simpa using hc.symm
        | cons a as =>
          rw [List.cons_append] at hc
          injection hc with h1 h2
          exact absurd h2.symm (by simp)
      obtain ⟨hchn, rfl⟩ := hch
      rcases hA hchn with h' | h'
      · exact absurd h' h
      · exact (hasNonWs_iff_pyStrip_ne cur).mp h'
  | cons s ss ih =>
    intro chunks cur hpieces hA hB c hc
    have hpieces' : ∀ piece ∈ ss, ∀ d, piece.head? = some d → pyIsSpace d = false :=
      fun piece hp => hpieces piece (by simp [hp])
    simp only [TextSplitter.slpGo] at hc
    by_cases hov : cur.length + s.length > ts.chunk_size
    · rw [if_pos hov] at hc
      by_cases hcn : cur ≠ []
      · rw [if_pos hcn] at hc
        refine ih _ _ hpieces' ?_ ?_ c hc
        · intro hx
          simp at hx
        · intro hx
          exact absurd hx (by
            intro h
            exact getOverlap_ne_nil ts cur hcn (by
              rcases List.append_eq_nil.mp h with ⟨h1, _⟩
              exact h1))
      · rw [if_neg hcn] at hc
        push_neg at hcn
        have hs : s ≠ [] := by
          intro hx
          rw [hcn, hx] at hov
          simp at hov
        have hsn : hasNonWs s = true := hasNonWs_of_head s hs (hpieces s (by simp))
        refine ih _ _ hpieces' ?_ ?_ c hc
        · intro hx
          exfalso
          rcases List.append_eq_nil.mp hx with ⟨_, h2⟩
          exact splitByWords_ne_nil ts s hsn h2
        · intro _ x hx
          rcases List.mem_append.mp hx with hx | hx
          · exact hB hcn x hx
          · exact splitByWords_elems ts s x hx
    · rw [if_neg hov] at hc
      by_cases hcn : cur ≠ []
      · rw [if_pos hcn] at hc
        refine ih _ _ hpieces' ?_ ?_ c hc
        · intro hch
          refine Or.inr ?_
          unfold hasNonWs
          rw [List.any_append, List.any_append]
          refine Bool.or_eq_true_iff.mpr (Or.inl (Bool.or_eq_true_iff.mpr (Or.inr ?_)))
          decide
        · intro hx
          exact absurd hx (by simp)
      · rw [if_neg hcn] at hc
        push_neg at hcn
        by_cases hs : s = []
        · subst hs
          subst hcn
          exact ih _ _ hpieces' hA hB c hc
        · refine ih _ _ hpieces' ?_ ?_ c hc
          · intro _
            exact Or.inr (hasNonWs_of_head s hs (hpieces s (by simp)))
          · intro hx
            exact absurd hx hs

/-- A singleton `_split_large_part` result is a non-empty chunk. -/
lemma splitLargePart_singleton (ts : TextSplitter) (p : List Char)
    (hp : pyStrip p = p) :
    ∀ c, ts.splitLargePart p = [c] → c ≠ [] := by
  unfold TextSplitter.splitLargePart
  exact slpGo_singleton ts _ [] [] (sentSplit_pieces p hp)
    (fun _ => Or.inl rfl) (fun _ x hx => absurd hx (by simp))

/-- `split_text`'s loop returns at least one chunk once any part with
non-whitespace content is processed. -/
lemma stGo_ne (ts : TextSplitter) :
    ∀ (ps : List (List Char)) (chunks : List (List Char)) (cur : List Char),
      (chunks ≠ [] ∨ cur ≠ [] ∨ ∃ p ∈ ps, pyStrip p ≠ []) →
      TextSplitter.stGo ts ps chunks cur ≠ [] := by
  intro ps
  induction ps with
  | nil =>
    intro chunks cur h
    simp only [TextSplitter.stGo]
    by_cases hc : cur = []
    · rw [if_pos hc]
      rcases h with h | h | ⟨p, hp, _⟩
      · exact h
      · exact absurd hc h
      · simp at hp
    · rw [if_neg hc]
      simp
  | cons p ps ih =>
    intro chunks cur h
    simp only [TextSplitter.stGo]
    by_cases hq : pyStrip p = []
    · rw [if_pos hq]
      refine ih _ _ ?_
      rcases h with h | h | ⟨p', hp', hq'⟩
      · exact Or.inl h
      · exact Or.inr (Or.inl h)
      · rcases List.mem_cons.mp hp' with rfl | hp''
        · exact absurd hq hq'
        · exact Or.inr (Or.inr ⟨p', hp'', hq'⟩)
    · rw [if_neg hq]
      have hqs : pyStrip (pyStrip p) = pyStrip p := pyStrip_idem p
      by_cases hov : cur.length + (pyStrip p).length + ts.separator.length > ts.chunk_size
      · rw [if_pos hov]
        by_cases hc : cur ≠ []
        · rw [if_pos hc]
          exact ih _ _ (Or.inl (by simp))
        · rw [if_neg hc]
          have hsub := splitLargePart_ne_nil ts (pyStrip p) hqs hq
          cases hs : ts.splitLargePart (pyStrip p) with
          | nil => exact absurd hs hsub
          | cons x xs =>
            cases xs with
            | nil =>
              refine ih _ _ (Or.inr (Or.inl ?_))
              show x ≠ []
              exact splitLargePart_singleton ts (pyStrip p) hqs x hs
            | cons y ys =>
              refine ih _ _ (Or.inl ?_)
              simp
      · rw [if_neg hov]
        by_cases hc : cur ≠ []
        · rw [if_pos hc]
          refine ih _ _ (Or.inr (Or.inl ?_))
          intro hx
          rcases List.append_eq_nil.mp hx with ⟨h1, _⟩
          rcases List.append_eq_nil.mp h1 with ⟨h2, _⟩
          exact hc h2
        · rw [if_neg hc]
          exact ih _ _ (Or.inr (Or.inl hq))

/-- Joining all-whitespace pieces with an all-whitespace separator yields
all-whitespace text. -/
lemma allWs_joinSep (sep : List Char) (Q : List (List Char))
    (hsep : ∀ c ∈ sep, pyIsSpace c = true) (hQ : ∀ q ∈ Q, ∀ c ∈ q, pyIsSpace c = true) :
    ∀ c ∈ joinSep sep Q, pyIsSpace c = true := by
  induction Q with
  | nil => intro c hc; simp [joinSep] at hc
  | cons q R ih =>
    intro c hc
    rw [joinSep_cons] at hc
    rcases List.mem_append.mp hc with hc | hc
    · exact hQ q (by simp) c hc
    · by_cases hR : (R : List (List Char)).isEmpty = true
      · rw [if_pos hR] at hc
        simp at hc
      · rw [if_neg hR] at hc
        rcases List.mem_append.mp hc with hc | hc
        · exact hsep c hc
        · exact ih (fun x hx => hQ x (by simp [hx])) c hc

/-- C5 (amended): with a non-empty, whitespace-only separator (such as the
default `"\n\n"`), `split_text` returns the empty list exactly for empty or
whitespace-only input.  (As stated the claim fails for separators containing
non-whitespace characters — see the counterexample.) -/
theorem split_empty_iff_whitespace (ts : TextSplitter) (text : List Char)
    (hsep : ts.separator ≠ []) (hws : ∀ c ∈ ts.separator, pyIsSpace c = true) :
    ts.splitText text = [] ↔ pyStrip text = [] := by
  constructor
  · intro h
    by_contra hx
    unfold TextSplitter.splitText at h
    rw [if_neg hx] at h
    have hpart : ∃ p ∈ pySplit ts.separator text, pyStrip p ≠ [] := by
      by_contra hall
      push_neg at hall
      apply hx
      rw [pyStrip_eq_nil_iff]
      intro c hc
      rw [← pySplit_join ts.separator text hsep] at hc
      refine allWs_joinSep ts.separator _ hws ?_ c hc
      intro q hq d hd
      have := hall q hq
      simp only [ne_eq, not_not] at this
      rw [pyStrip_eq_nil_iff] at this
      exact this d hd
    exact stGo_ne ts _ [] [] (Or.inr (Or.inr hpart)) h
  · intro h
    unfold TextSplitter.splitText
    rw [if_pos h]

/-- Counterexample to C5 as stated: with `separator = "xx"` the non-empty,
non-whitespace input `"xx"` yields an empty chunk list, because both split
parts are empty. -/
theorem nonempty_input_empty_output_counterexample :
    pyStrip "xx".toList ≠ [] ∧
      (TextSplitter.mk 1000 200 "xx".toList).splitText "xx".toList = [] := by
  decide

/-- Witness for C5 (amended) with the default separator. -/
theorem split_empty_iff_whitespace_witness :
    (("\n\n".toList : List Char) ≠ [] ∧ ∀ c ∈ ("\n\n".toList : List Char), pyIsSpace c = true) ∧
      ((TextSplitter.mk 10 2 "\n\n".toList).splitText "hi there".toList = [] ↔
        pyStrip "hi there".toList = []) :=
  ⟨⟨by decide, by decide⟩,
    split_empty_iff_whitespace (TextSplitter.mk 10 2 "\n\n".toList) "hi there".toList
      (by decide) (by decide)⟩

/-! ## Overlap lemmas for the tagged splitter -/

lemma isPrefixOf_nil_left (b : List Char) : List.isPrefixOf [] b = true := by
  cases b <;> rfl

lemma isPrefixOf_append_self : ∀ (a b : List Char), a.isPrefixOf (a ++ b) = true := by
  intro a b
  induction a with
  | nil => exact isPrefixOf_nil_left b
  | cons c cs ih => simp [List.isPrefixOf, ih]

lemma isPrefixOf_extend : ∀ (p a b : List Char),
    p.isPrefixOf a = true → p.isPrefixOf (a ++ b) = true := by
  intro p
  induction p with
  | nil => intro a b _; exact isPrefixOf_nil_left _
  | cons c cs ih =>
    intro a b h
    cases a with
    | nil => simp [List.isPrefixOf] at h
    | cons d ds =>
      simp only [List.isPrefixOf, Bool.and_eq_true, beq_iff_eq] at h ⊢
      exact ⟨h.1, ih ds b h.2⟩

lemma hasNonWs_iff_lstrip_ne (l : List Char) : hasNonWs l = true ↔ lstrip l ≠ [] := by
  rw [Ne, lstrip_eq_nil_iff]
  unfold hasNonWs
  rw [List.any_eq_true]
  constructor
  · rintro ⟨c, hc, hcw⟩ hall
    rw [hall c hc] at hcw
    simp at hcw
  · intro h
    by_contra hx
    push_neg at hx
    apply h
    intro c hc
    have := hx c hc
    simpa using this

lemma hasNonWs_of_lastNonWs (l : List Char) (hne : l ≠ []) (h : lastNonWs l) :
    hasNonWs l = true := by
  cases hl : l.getLast? with
  | none => exact absurd (List.getLast?_eq_none_iff.mp hl) hne
  | some c =>
    unfold hasNonWs
    rw [List.any_eq_true]
    exact ⟨c, List.mem_of_mem_getLast? hl, by simp [h c hl]⟩

lemma lstrip_drop_eq (u : List Char) :
    u.drop (u.takeWhile pyIsSpace).length = lstrip u := by
  have h := List.drop_left (u.takeWhile pyIsSpace) (lstrip u)
  rw [takeWhile_append_lstrip] at h
  exact h

lemma takeWhile_ws_length (u : List Char) :
    (u.takeWhile pyIsSpace).length = u.length - (lstrip u).length ∧
      (lstrip u).length ≤ u.length := by
  have h := congrArg List.length (takeWhile_append_lstrip u)
  rw [List.length_append] at h
  omega

lemma lastNonWs_drop (u : List Char) (k : Nat) (h : lastNonWs u)
    (hne : u.drop k ≠ []) : lastNonWs (u.drop k) := by
  intro c hc
  refine h c ?_
  conv_lhs => rw [← List.take_append_drop k u]
  rw [List.getLast?_append_of_ne_nil _ hne]
  exact hc

lemma lastNonWs_getOverlap (ts : TextSplitter) (u : List Char) (hu : u ≠ [])
    (h : lastNonWs u) : ts.getOverlap u ≠ [] ∧ lastNonWs (ts.getOverlap u) := by
  refine ⟨getOverlap_ne_nil ts u hu, ?_⟩
  unfold TextSplitter.getOverlap
  by_cases h1 : u.length ≤ ts.chunk_overlap
  · rw [if_pos h1]; exact h
  · rw [if_neg h1]
    by_cases h2 : ts.chunk_overlap = 0
    · rw [if_pos h2]; exact h
    · rw [if_neg h2]
      refine lastNonWs_drop u _ h ?_
      have := getOverlap_ne_nil ts u hu
      unfold TextSplitter.getOverlap at this
      rw [if_neg h1, if_neg h2] at this
      exact this

lemma pyStrip_eq_lstrip_of_lastNonWs (u : List Char) (hlast : lastNonWs u) :
    pyStrip u = lstrip u := by
  unfold pyStrip
  refine rstrip_eq_self_of_lastNonWs _ ?_
  intro c hc
  refine hlast c ?_
  by_cases hne : lstrip u = []
  · rw [hne] at hc; simp at hc
  · rw [← getLast?_lstrip_of_ne u hne]
    exact hc

lemma takeWhile_ws_all (u : List Char) : lstrip (u.takeWhile pyIsSpace) = [] := by
  rw [lstrip_eq_nil_iff]
  exact fun c hc => List.mem_takeWhile_imp hc

/-- Key overlap identity: the left-stripped trailing `chunk_overlap`
characters of the emitted (stripped) chunk coincide with the left-stripped
`_get_overlap` text of the unstripped accumulator. -/
lemma overlapTail_eq (ts : TextSplitter) (u : List Char)
    (hlast : lastNonWs u) (hco : ts.chunk_overlap ≠ 0) :
    lstrip ((pyStrip u).drop ((pyStrip u).length - ts.chunk_overlap)) =
      lstrip (ts.getOverlap u) := by
  rw [pyStrip_eq_lstrip_of_lastNonWs u hlast]
  obtain ⟨hlen, hle⟩ := takeWhile_ws_length u
  unfold TextSplitter.getOverlap
  by_cases h1 : u.length ≤ ts.chunk_overlap
  · rw [if_pos h1]
    have h2 : (lstrip u).length ≤ ts.chunk_overlap := le_trans hle h1
    rw [Nat.sub_eq_zero_of_le h2, List.drop_zero]
    conv_rhs => rw [← takeWhile_append_lstrip u]
    rw [lstrip_append_of_allws _ _ (takeWhile_ws_all u), lstrip_idem]
  · rw [if_neg h1, if_neg hco]
    by_cases h2 : ts.chunk_overlap ≤ (lstrip u).length
    · have heq : (lstrip u).drop ((lstrip u).length - ts.chunk_overlap) =
          u.drop (u.length - ts.chunk_overlap) := by
        conv_lhs => rw [← lstrip_drop_eq u]
        rw [List.length_drop, List.drop_drop]
        congr 1
        omega
      rw [heq]
    · push_neg at h2
      rw [Nat.sub_eq_zero_of_le (by omega), List.drop_zero, lstrip_idem]
      have hk : u.length - ts.chunk_overlap ≤ (u.takeWhile pyIsSpace).length := by
        omega
      have heq2 : ∀ k, k ≤ (u.takeWhile pyIsSpace).length →
          u.drop k = (u.takeWhile pyIsSpace).drop k ++ lstrip u := by
        intro k hk2
        conv_lhs => rw [← takeWhile_append_lstrip u]
        exact List.drop_append_of_le_length hk2
      rw [heq2 _ hk]
      rw [lstrip_append_of_allws _ _ ?_]
      · rw [lstrip_idem]
      · rw [lstrip_eq_nil_iff]
        intro c hc
        exact List.mem_takeWhile_imp ((List.drop_sublist _ _).subset hc)

/-- After an overflow emission, the stripped chunk's overlap tail is a
prefix of the left-stripped new accumulator `overlap ++ part`. -/
lemma overlap_rel (ts : TextSplitter) (u q : List Char) (hu : u ≠ [])
    (hlast : lastNonWs u) (hq : hasNonWs q = true) :
    (lstrip ((pyStrip u).drop ((pyStrip u).length - ts.chunk_overlap))).isPrefixOf
        (lstrip (ts.getOverlap u ++ q)) = true ∧
      lstrip (ts.getOverlap u ++ q) ≠ [] := by
  have hq' : lstrip (ts.getOverlap u ++ q) ≠ [] := by
    rw [← hasNonWs_iff_lstrip_ne]
    unfold hasNonWs at hq ⊢
    rw [List.any_append, hq]
    simp
  refine ⟨?_, hq'⟩
  by_cases hco : ts.chunk_overlap = 0
  · rw [pyStrip_eq_lstrip_of_lastNonWs u hlast, hco, Nat.sub_zero, List.drop_length]
    exact isPrefixOf_nil_left _
  · rw [overlapTail_eq ts u hlast hco]
    obtain ⟨hone, holast⟩ := lastNonWs_getOverlap ts u hu hlast
    have hls : lstrip (ts.getOverlap u) ≠ [] := by
      rw [← hasNonWs_iff_lstrip_ne]
      exact hasNonWs_of_lastNonWs _ hone holast
    rw [lstrip_append_of_ne _ _ hls]
    exact isPrefixOf_append_self _ _

lemma lastNonWs_joinSpace (ws : List (List Char))
    (h : ∀ w ∈ ws, w ≠ [] ∧ ∀ c ∈ w, pyIsSpace c = false) :
    lastNonWs (joinSep [' '] ws) := by
  refine lastNonWs_joinSep [' '] ws (fun q hq => ⟨(h q hq).1, ?_⟩)
  intro c hc
  exact (h q hq).2 c (List.mem_of_mem_getLast? hc)

lemma sbwGo_lastNonWs (ts : TextSplitter) :
    ∀ (ws : List (List Char)) (chunks curW : List (List Char)) (curLen : Nat),
      (∀ x ∈ chunks, lastNonWs x) →
      (∀ w ∈ curW, w ≠ [] ∧ ∀ c ∈ w, pyIsSpace c = false) →
      (∀ w ∈ ws, w ≠ [] ∧ ∀ c ∈ w, pyIsSpace c = false) →
      ∀ x ∈ TextSplitter.sbwGo ts ws chunks curW curLen, lastNonWs x := by
  intro ws
  induction ws with
  | nil =>
    intro chunks curW curLen hch hcw _ x hx
    simp only [TextSplitter.sbwGo] at hx
    by_cases h : curW = []
    · rw [if_pos h] at hx
      exact hch x hx
    · rw [if_neg h] at hx
      rcases List.mem_append.mp hx with hx | hx
      · exact hch x hx
      · simp only [List.mem_singleton] at hx
        subst hx
        exact lastNonWs_joinSpace curW hcw
  | cons w ws ih =>
    intro chunks curW curLen hch hcw hws x hx
    have hw := hws w (by simp)
    have hws' : ∀ v ∈ ws, v ≠ [] ∧ ∀ c ∈ v, pyIsSpace c = false :=
      fun v hv => hws v (by simp [hv])
    simp only [TextSplitter.sbwGo] at hx
    by_cases hov : curLen + (w.length + 1) > ts.chunk_size
    · rw [if_pos hov] at hx
      by_cases hc : curW ≠ []
      · rw [if_pos hc] at hx
        refine ih _ _ _ ?_ ?_ hws' x hx
        · intro y hy
          rcases List.mem_append.mp hy with hy | hy
          · exact hch y hy
          · simp only [List.mem_singleton] at hy
            subst hy
            exact lastNonWs_joinSpace curW hcw
        · intro y hy
          rcases List.mem_append.mp hy with hy | hy
          · exact hcw y (pyTailSlice_subset _ _ y hy)
          · simp only [List.mem_singleton] at hy
            subst hy
            exact hw
      · rw [if_neg hc] at hx
        refine ih _ _ _ ?_ (by simp) hws' x hx
        intro y hy
        rcases List.mem_append.mp hy with hy | hy
        · exact hch y hy
        · simp only [List.mem_singleton] at hy
          subst hy
          intro c hc'
          exact hw.2 c (List.mem_of_mem_getLast? hc')
    · rw [if_neg hov] at hx
      refine ih _ _ _ hch ?_ hws' x hx
      intro y hy
      rcases List.mem_append.mp hy with hy | hy
      · exact hcw y hy
      · simp only [List.mem_singleton] at hy
        subst hy
        exact hw

lemma slpGo_lastNonWs (ts : TextSplitter) :
    ∀ (pieces : List (List Char)) (chunks : List (List Char)) (cur : List Char),
      (∀ x ∈ chunks, lastNonWs x) →
      ∀ x ∈ TextSplitter.slpGo ts pieces chunks cur, lastNonWs x := by
  intro pieces
  induction pieces with
  | nil =>
    intro chunks cur hch x hx
    simp only [TextSplitter.slpGo] at hx
    by_cases h : cur = []
    · rw [if_pos h] at hx
      exact hch x hx
    · rw [if_neg h] at hx
      rcases List.mem_append.mp hx with hx | hx
      · exact hch x hx
      · simp only [List.mem_singleton] at hx
        subst hx
        exact lastNonWs_pyStrip cur
  | cons s ss ih =>
    intro chunks cur hch x hx
    simp only [TextSplitter.slpGo] at hx
    by_cases hov : cur.length + s.length > ts.chunk_size
    · rw [if_pos hov] at hx
      by_cases hc : cur ≠ []
      · rw [if_pos hc] at hx
        refine ih _ _ ?_ x hx
        intro y hy
        rcases List.mem_append.mp hy with hy | hy
        · exact hch y hy
        · simp only [List.mem_singleton] at hy
          subst hy
          exact lastNonWs_pyStrip cur
      · rw [if_neg hc] at hx
        refine ih _ _ ?_ x hx
        intro y hy
        rcases List.mem_append.mp hy with hy | hy
        · exact hch y hy
        · refine sbwGo_lastNonWs ts _ _ _ _ (by simp) (by simp) ?_ y hy
          exact fun w hw => pyWords_mem s w hw
    · rw [if_neg hov] at hx
      by_cases hc : cur ≠ []
      · rw [if_pos hc] at hx
        exact ih _ _ hch x hx
      · rw [if_neg hc] at hx
        exact ih _ _ hch x hx

lemma splitLargePart_lastNonWs (ts : TextSplitter) (p : List Char) :
    ∀ x ∈ ts.splitLargePart p, lastNonWs x := by
  unfold TextSplitter.splitLargePart
  exact slpGo_lastNonWs ts _ [] [] (by simp)

lemma map_fst_tag (l : List (List Char)) :
    (l.map (fun c => (c, false))).map Prod.fst = l := by
  induction l with
  | nil => rfl
  | cons c cs ih => simp [ih]

/-- The tagged loop projects onto the plain `split_text` loop. -/
lemma stGoT_map_fst (ts : TextSplitter) :
    ∀ (ps : List (List Char)) (chunksT : List (List Char × Bool)) (cur : List Char),
      TextSplitter.stGo ts ps (chunksT.map Prod.fst) cur =
        (TextSplitter.stGoT ts ps chunksT cur).map Prod.fst := by
  intro ps
  induction ps with
  | nil =>
    intro chunksT cur
    simp only [TextSplitter.stGo, TextSplitter.stGoT]
    by_cases h : cur = []
    · rw [if_pos h, if_pos h]
    · rw [if_neg h, if_neg h]
      simp
  | cons p ps ih =>
    intro chunksT cur
    simp only [TextSplitter.stGo, TextSplitter.stGoT]
    by_cases hq : pyStrip p = []
    · rw [if_pos hq, if_pos hq]
      exact ih chunksT cur
    · rw [if_neg hq, if_neg hq]
      by_cases hov : cur.length + (pyStrip p).length + ts.separator.length > ts.chunk_size
      · rw [if_pos hov, if_pos hov]
        by_cases hc : cur ≠ []
        · rw [if_pos hc, if_pos hc]
          have := ih (chunksT ++ [(pyStrip cur, true)]) (ts.getOverlap cur ++ pyStrip p)
          simpa using this
        · rw [if_neg hc, if_neg hc]
          have := ih (chunksT ++ ((ts.splitLargePart (pyStrip p)).dropLast.map
            (fun c => (c, false)))) ((ts.splitLargePart (pyStrip p)).getLastD [])
          rw [List.map_append, map_fst_tag] at this
          exact this
      · rw [if_neg hov, if_neg hov]
        by_cases hc : cur ≠ []
        · rw [if_pos hc, if_pos hc]
          exact ih chunksT _
        · rw [if_neg hc, if_neg hc]
          exact ih chunksT _

/-- `split_text` is the first projection of the tagged splitter. -/
lemma splitText_eq_tagged (ts : TextSplitter) (text : List Char) :
    ts.splitText text = (ts.splitTextTagged text).map Prod.fst := by
  unfold TextSplitter.splitText TextSplitter.splitTextTagged
  by_cases h : pyStrip text = []
  · rw [if_pos h, if_pos h]
    rfl
  · rw [if_neg h, if_neg h]
    have := stGoT_map_fst ts (pySplit ts.separator text) [] []
    simpa using this

/-- The overlap relation between consecutive tagged chunks: when the first
chunk was emitted by the overflow branch, its (left-stripped) trailing
`min(chunk_overlap, len)` characters are a prefix of the next chunk. -/
def overlapOk (co : Nat) (x y : List Char × Bool) : Prop :=
  x.2 = true → (lstrip (x.1.drop (x.1.length - co))).isPrefixOf y.1 = true

lemma chain_false (co : Nat) (l : List (List Char)) :
    List.Chain' (overlapOk co) (l.map (fun c => (c, false))) := by
  induction l with
  | nil => simp
  | cons c cs ih =>
    simp only [List.map_cons]
    refine List.chain'_cons'.mpr ⟨?_, ih⟩
    intro y _ h2
    simp at h2

/-- Main invariant induction: the tagged loop emits a chunk list whose
adjacent pairs satisfy the overlap relation. -/
lemma stGoT_chain (ts : TextSplitter) :
    ∀ (ps : List (List Char)) (chunksT : List (List Char × Bool)) (cur : List Char),
      List.Chain' (overlapOk ts.chunk_overlap) chunksT →
      (∀ ct, chunksT.getLast? = some ct → ct.2 = true →
        (lstrip (ct.1.drop (ct.1.length - ts.chunk_overlap))).isPrefixOf (lstrip cur) = true ∧
          lstrip cur ≠ []) →
      (cur ≠ [] → lastNonWs cur) →
      List.Chain' (overlapOk ts.chunk_overlap) (TextSplitter.stGoT ts ps chunksT cur) := by
  intro ps
  induction ps with
  | nil =>
    intro chunksT cur hA hB hC
    simp only [TextSplitter.stGoT]
    by_cases h : cur = []
    · rw [if_pos h]
      exact hA
    · rw [if_neg h]
      refine List.chain'_append.mpr ⟨hA, List.chain'_singleton _, ?_⟩
      intro x hx y hy htag
      simp only [List.head?_cons, Option.mem_def, Option.some_inj] at hy
      subst hy
      obtain ⟨hpref, _⟩ := hB x hx htag
      rw [← pyStrip_eq_lstrip_of_lastNonWs cur (hC h)] at hpref
      exact hpref
  | cons p ps ih =>
    intro chunksT cur hA hB hC
    simp only [TextSplitter.stGoT]
    by_cases hq : pyStrip p = []
    · rw [if_pos hq]
      exact ih chunksT cur hA hB hC
    · rw [if_neg hq]
      have hqh : hasNonWs (pyStrip p) = true :=
        hasNonWs_of_head _ hq (firstNonWs_pyStrip p)
      have hql : lastNonWs (pyStrip p) := lastNonWs_pyStrip p
      by_cases hov : cur.length + (pyStrip p).length + ts.separator.length > ts.chunk_size
      · rw [if_pos hov]
        by_cases hc : cur ≠ []
        · rw [if_pos hc]
          refine ih _ _ ?_ ?_ ?_
          · refine List.chain'_append.mpr ⟨hA, List.chain'_singleton _, ?_⟩
            intro x hx y hy htag
            simp only [List.head?_cons, Option.mem_def, Option.some_inj] at hy
            subst hy
            obtain ⟨hpref, _⟩ := hB x hx htag
            rw [← pyStrip_eq_lstrip_of_lastNonWs cur (hC hc)] at hpref
            exact hpref
          · intro ct hct htag
            rw [List.getLast?_append_of_ne_nil _ (by simp)] at hct
            simp only [List.getLast?_singleton, Option.some_inj] at hct
            subst hct
            exact overlap_rel ts cur (pyStrip p) hc (hC hc) hqh
          · intro _
            exact lastNonWs_append _ _ hq hql
        · rw [if_neg hc]
          push_neg at hc
          have hBfalse : ∀ ct, chunksT.getLast? = some ct → ct.2 = true → False := by
            intro ct hct htag
            have := (hB ct hct htag).2
            rw [hc] at this
            exact this rfl
          refine ih _ _ ?_ ?_ ?_
          · refine List.chain'_append.mpr ⟨hA, chain_false _ _, ?_⟩
            intro x hx y _ htag
            exact absurd htag (by
              intro ht
              exact hBfalse x hx ht)
          · intro ct hct htag
            cases hdl : (ts.splitLargePart (pyStrip p)).dropLast with
            | nil =>
              rw [hdl] at hct
              simp only [List.map_nil, List.append_nil] at hct
              exact absurd htag (fun ht => hBfalse ct hct ht)
            | cons y ys =>
              rw [hdl] at hct
              rw [List.getLast?_append_of_ne_nil _ (by simp)] at hct
              have hmem := List.mem_of_mem_getLast? hct
              obtain ⟨c', _, hc'⟩ := List.mem_map.mp hmem
              rw [← hc'] at htag
              simp at htag
          · intro hne
            cases hsub : ts.splitLargePart (pyStrip p) with
            | nil =>
              intro c hc
              simp at hc
            | cons x xs =>
              rw [List.getLastD_eq_getLast?, List.getLast?_eq_getLast _ (by simp)]
              simp only [Option.getD_some]
              refine splitLargePart_lastNonWs ts (pyStrip p) _ ?_
              rw [hsub]
              exact List.getLast_mem _
      · rw [if_neg hov]
        by_cases hc : cur ≠ []
        · rw [if_pos hc]
          refine ih _ _ hA ?_ ?_
          · intro ct hct htag
            obtain ⟨hpref, hne⟩ := hB ct hct htag
            have h1 : lstrip (cur ++ ts.separator) = lstrip cur ++ ts.separator :=
              lstrip_append_of_ne _ _ hne
            have h2 : lstrip (cur ++ ts.separator ++ pyStrip p) =
                (lstrip cur ++ ts.separator) ++ pyStrip p := by
              rw [← h1]
              refine lstrip_append_of_ne _ _ ?_
              rw [h1]
              simp [hne]
            rw [h2]
            constructor
            · rw [List.append_assoc]
              exact isPrefixOf_extend _ _ _ hpref
            · simp [hne]
          · intro _
            exact lastNonWs_append _ _ hq hql
        · rw [if_neg hc]
          push_neg at hc
          refine ih _ _ hA ?_ (fun _ => hql)
          intro ct hct htag
          have := (hB ct hct htag).2
          rw [hc] at this
          exact absurd rfl this

/-- C3 (amended): for consecutive chunks `c[i], c[i+1]` of `split_text`
where `c[i]` was emitted on the overflow branch (tag `true` in
`splitTextTagged`, whose first projection is `split_text` by
`splitText_eq_tagged`), the trailing `min(chunk_overlap, len(c[i]))`
characters of `c[i]` — after removing any leading whitespace, which
`.strip()` removes from the emitted chunk but `_get_overlap` keeps — are a
prefix of `c[i+1]`.  The unamended claim (without the leading-whitespace
removal) is refuted by the counterexample. -/
theorem overlap_lstrip_property (ts : TextSplitter) (text : List Char) :
    List.Chain' (overlapOk ts.chunk_overlap) (ts.splitTextTagged text) := by
  unfold TextSplitter.splitTextTagged
  by_cases h : pyStrip text = []
  · rw [if_pos h]
    simp
  · rw [if_neg h]
    refine stGoT_chain ts _ [] [] (by simp) ?_ (by simp)
    intro ct hct
    simp at hct

/-- Counterexample to C3 as stated: with `chunk_size = 10`,
`chunk_overlap = 4`, input `"abc\n\nde\n\nfffff"`, the first chunk
`"abc\n\nde"` is emitted by the overflow branch, but its trailing 4
characters `"\n\nde"` are not a prefix of the next chunk `"defffff"`
(the seeded overlap's leading whitespace was stripped away). -/
theorem overlap_property_counterexample :
    (TextSplitter.mk 10 4 "\n\n".toList).splitTextTagged "abc\n\nde\n\nfffff".toList =
        [("abc\n\nde".toList, true), ("defffff".toList, false)] ∧
      (("abc\n\nde".toList : List Char).drop ("abc\n\nde".toList.length - 4)).isPrefixOf
        "defffff".toList = false := by
  decide
